import Mathlib

/-!
Shallow embedding of the split-testing pipeline in
`api/app_analytics/split_testing/tasks.py` (functions
`update_features_split_tests` and `_save_environment_split_test`).

Django rows are modelled as structures, the database as lists of rows, and
queryset operations as list filters in database order.  Machine-external
collaborators that are not part of the source under verification —
`Identity.get_hash_key`, `FeatureState.get_multivariate_feature_state_value`
and `gather_split_test_metrics` — are taken as function parameters, so every
theorem holds for an arbitrary variant resolver and significance calculator.
Fallible queryset operations (`objects.get`, plain-dict `KeyError`) are
modelled with `Except`.
-/

namespace SplitTesting

/-- An identity row (`environments.identities.models.Identity`): primary key,
owning environment, and the user-supplied identifier string. -/
structure Identity where
  id : Nat
  environment_id : Nat
  identifier : String
deriving Repr, DecidableEq

/-- An environment row; only the fields read by the pipeline. -/
structure Environment where
  id : Nat
  use_identity_composite_key_for_hashing : Bool
deriving Repr, DecidableEq

/-- A feature-state row relating a feature to an environment. -/
structure FeatureState where
  feature_id : Nat
  environment_id : Nat
deriving Repr, DecidableEq

/-- A feature row: primary key, name, feature type and the primary keys of
its configured multivariate options. -/
structure Feature where
  id : Nat
  name : String
  type : String
  multivariate_option_ids : List Nat
deriving Repr, DecidableEq

/-- A raw evaluation-log row (`FeatureEvaluationRaw`): the evaluated feature
name, the environment, and an optional identity identifier. -/
structure FeatureEvaluationRaw where
  feature_name : String
  environment_id : Nat
  identity_identifier : Option String
deriving Repr, DecidableEq

/-- A conversion-event row, keyed by environment and identity primary key. -/
structure ConversionEvent where
  environment_id : Nat
  identity_id : Nat
deriving Repr, DecidableEq

/-- A persisted split-test result row.  `multivariate_feature_option_id` is
`none` for the Control arm, as in the source's nullable column. -/
structure SplitTest where
  id : Nat
  feature_id : Nat
  environment_id : Nat
  multivariate_feature_option_id : Option Nat
  evaluation_count : Nat
  conversion_count : Nat
  pvalue : Int
  updated_at : Nat
deriving Repr, DecidableEq

/-- The database: one list of rows per table, in database order. -/
structure DB where
  features : List Feature
  feature_states : List FeatureState
  environments : List Environment
  identities : List Identity
  raw_evaluations : List FeatureEvaluationRaw
  conversion_events : List ConversionEvent
  split_tests : List SplitTest
deriving Repr, DecidableEq

/-- `features.feature_types.MULTIVARIATE`. -/
def MULTIVARIATE : String := "MULTIVARIATE"

/-- Errors raised by the pipeline: Django `DoesNotExist` on the three
`objects.get` calls, and Python `KeyError` on a plain-dict lookup. -/
inductive Err where
  | featureNotFound
  | environmentNotFound
  | featureStateNotFound
  | keyError
deriving Repr, DecidableEq

/-- A Python dict from an arm key (`none` = Control, `some oid` = variant)
to a count, as an insertion-ordered association list. -/
abbrev CountMap := List (Option Nat × Nat)

/-- Dict lookup. -/
def alGet? (l : CountMap) (k : Option Nat) : Option Nat :=
  match l with
  | [] => none
  | (k', v) :: rest => if k' == k then some v else alGet? rest k

/-- Dict assignment: update in place when the key exists, append otherwise
(Python insertion-order semantics). -/
def alSet (l : CountMap) (k : Option Nat) (v : Nat) : CountMap :=
  match l with
  | [] => [(k, v)]
  | (k', v') :: rest => if k' == k then (k', v) :: rest else (k', v') :: alSet rest k v

/-- The keys of a count map, in insertion order. -/
def alKeys (l : CountMap) : List (Option Nat) := l.map (fun p => p.1)

/-- The sum of all counts in a count map. -/
def alSum (l : CountMap) : Nat := (l.map (fun p => p.2)).sum

/-- `d[k] += 1` on a plain dict: `KeyError` when the key is missing. -/
def alIncr (l : CountMap) (k : Option Nat) : Except Err CountMap :=
  match alGet? l k with
  | none => .error .keyError
  | some v => .ok (alSet l k (v + 1))

/-- Lines 89–95 of the source: a zero entry for every configured variant of
the feature, then a zero entry for Control (`None`). -/
def initCounts (feature : Feature) : CountMap :=
  alSet (feature.multivariate_option_ids.foldl (fun acc oid => alSet acc (some oid) 0) []) none 0

/-- Lines 79–82: the identities of the environment whose identifier occurs in
the deduplicated evaluation list. -/
def evaluatedIdentities (db : DB) (environment_id : Nat) (idents : List String) : List Identity :=
  db.identities.filter
    (fun i => i.environment_id == environment_id && idents.contains i.identifier)

/-- Lines 100–105: conversion events of the environment restricted to
evaluated identities, projected to the identity primary keys (the set of
converted identities, used through membership only). -/
def conversionIdentityIds (db : DB) (environment_id : Nat) (evaluated : List Identity) : List Nat :=
  (db.conversion_events.filter
    (fun ce => ce.environment_id == environment_id
      && (evaluated.map (fun i => i.id)).contains ce.identity_id)).map
    (fun ce => ce.identity_id)

section Pipeline

variable (get_hash_key : Identity → Bool → String)
variable (get_multivariate_feature_state_value : FeatureState → String → Option Nat)
variable (gather_split_test_metrics : CountMap → CountMap → Int)

/-- Lines 108–119: the arm an identity falls into — the hash key is built
from the identity and the environment's hashing flag, then resolved against
the feature state; `none` is the Control arm (`FeatureStateValue`). -/
def resolveArm (feature_state : FeatureState) (environment : Environment) (i : Identity) : Option Nat :=
  get_multivariate_feature_state_value feature_state
    (get_hash_key i environment.use_identity_composite_key_for_hashing)

/-- Lines 107–123: the aggregation loop over evaluated identities. -/
def countsLoop (resolve : Identity → Option Nat) (convIds : List Nat)
    (ids : List Identity) (ec cc : CountMap) : Except Err (CountMap × CountMap) :=
  match ids with
  | [] => .ok (ec, cc)
  | i :: rest =>
    match alIncr ec (resolve i) with
    | .error e => .error e
    | .ok ec' =>
      if convIds.contains i.id then
        match alIncr cc (resolve i) with
        | .error e => .error e
        | .ok cc' => countsLoop resolve convIds rest ec' cc'
      else
        countsLoop resolve convIds rest ec' cc

/-- The filter of `qs_existing_split_tests` (lines 130–133). -/
def envFeatureMatches (f e : Nat) (st : SplitTest) : Bool :=
  st.feature_id == f && st.environment_id == e

/-- The per-arm filter applied on top of `qs_existing_split_tests`
(lines 140–147). -/
def keyMatches (k : Option Nat) (st : SplitTest) : Bool :=
  st.multivariate_feature_option_id == k

/-- A row of `SplitTest.objects` matching one (feature, environment, arm). -/
def rowMatches (f e : Nat) (k : Option Nat) (st : SplitTest) : Bool :=
  envFeatureMatches f e st && keyMatches k st

/-- The first persisted row matching (feature, environment, arm), in
database order — `qs.filter(...).first()`. -/
def findRow (sts : List SplitTest) (f e : Nat) (k : Option Nat) : Option SplitTest :=
  sts.find? (rowMatches f e k)

/-- Lines 150–153: overwrite the counted fields of an existing row. -/
def setValues (st : SplitTest) (ev cv : Nat) (pv : Int) (now : Nat) : SplitTest :=
  { st with evaluation_count := ev, conversion_count := cv, pvalue := pv, updated_at := now }

/-- Lines 158–167: a fresh row for an arm with no existing row; the primary
key is assigned later by `bulk_create`. -/
def newSplitTest (f e : Nat) (k : Option Nat) (ev cv : Nat) (pv : Int) (now : Nat) : SplitTest :=
  { id := 0, feature_id := f, environment_id := e, multivariate_feature_option_id := k,
    evaluation_count := ev, conversion_count := cv, pvalue := pv, updated_at := now }

/-- Lines 135–167: the reconcile loop over `evaluation_counts.items()`,
returning the rows for `bulk_update` and `bulk_create` in iteration order. -/
def reconcileLoop (qs : List SplitTest) (cc : CountMap) (pv : Int)
    (f e now : Nat) (items : CountMap) : Except Err (List SplitTest × List SplitTest) :=
  match items with
  | [] => .ok ([], [])
  | (k, ev) :: rest =>
    match alGet? cc k with
    | none => .error .keyError
    | some cv =>
      match reconcileLoop qs cc pv f e now rest with
      | .error err => .error err
      | .ok (upd, news) =>
        match qs.find? (keyMatches k) with
        | some st => .ok (setValues st ev cv pv now :: upd, news)
        | none => .ok (upd, newSplitTest f e k ev cv pv now :: news)

/-- `SplitTest.objects.bulk_update` (lines 169–172): each database row whose
primary key occurs among the updated objects is replaced by that object. -/
def bulkUpdate (sts upd : List SplitTest) : List SplitTest :=
  sts.map (fun st => ((upd.find? (fun u => u.id == st.id)).getD st))

/-- The largest primary key in use (0 when the table is empty). -/
def maxId (sts : List SplitTest) : Nat :=
  sts.foldr (fun st m => max st.id m) 0

/-- Primary-key assignment performed by `bulk_create`: consecutive fresh
keys starting from `startId`. -/
def withFreshIds (startId : Nat) (news : List SplitTest) : List SplitTest :=
  match news with
  | [] => []
  | n :: rest => { n with id := startId } :: withFreshIds (startId + 1) rest

/-- `SplitTest.objects.bulk_create` (line 173): append the new rows with
fresh primary keys. -/
def bulkCreate (sts news : List SplitTest) : List SplitTest :=
  sts ++ withFreshIds (maxId sts + 1) news

/-- `_save_environment_split_test` (lines 73–173), as a function from the
database to the database or an error. -/
def save_environment_split_test (feature : Feature) (environment_id : Nat)
    (evaluated_identity_identifiers : List String) (now : Nat) (db : DB) : Except Err DB :=
  match db.environments.find? (fun en => en.id == environment_id) with
  | none => .error .environmentNotFound
  | some environment =>
    let evaluated_identities := evaluatedIdentities db environment_id evaluated_identity_identifiers
    match (db.feature_states.filter (fun fs => fs.feature_id == feature.id)).find?
        (fun fs => fs.environment_id == environment_id) with
    | none => .error .featureStateNotFound
    | some feature_state =>
      let conversion_identities := conversionIdentityIds db environment_id evaluated_identities
      match countsLoop
          (resolveArm get_hash_key get_multivariate_feature_state_value feature_state environment)
          conversion_identities evaluated_identities (initCounts feature) (initCounts feature) with
      | .error e => .error e
      | .ok (ec, cc) =>
        let pvalue := gather_split_test_metrics ec cc
        let qs := db.split_tests.filter (envFeatureMatches feature.id environment_id)
        match reconcileLoop qs cc pvalue feature.id environment_id now ec with
        | .error e => .error e
        | .ok (upd, news) =>
          .ok { db with split_tests := bulkCreate (bulkUpdate db.split_tests upd) news }

/-- Lines 49–56: raw evaluation rows for the feature restricted to its
environments and to non-null identifiers, projected to
(environment, identifier) pairs. -/
def qualifyingPairs (db : DB) (feature : Feature) (environment_ids : List Nat) : List (Nat × String) :=
  db.raw_evaluations.filterMap (fun r =>
    match r.identity_identifier with
    | none => none
    | some ident =>
      if r.feature_name == feature.name && environment_ids.contains r.environment_id then
        some (r.environment_id, ident)
      else
        none)

/-- `.distinct()` (line 56): first occurrences, in order. -/
def dedupF {α : Type} [BEq α] (l : List α) : List α :=
  l.foldl (fun acc a => if acc.contains a then acc else acc ++ [a]) []

/-- Lines 62–70: the per-environment loop, threading the database. -/
def saveEnvLoop (feature : Feature) (now : Nat) (env_keys : List Nat)
    (pairs : List (Nat × String)) (db : DB) : Except Err DB :=
  match env_keys with
  | [] => .ok db
  | e :: rest =>
    match save_environment_split_test get_hash_key get_multivariate_feature_state_value
        gather_split_test_metrics feature e
        ((pairs.filter (fun p => p.1 == e)).map (fun p => p.2)) now db with
    | .error err => .error err
    | .ok db' =>
      saveEnvLoop feature now rest pairs db'

/-- `update_features_split_tests` (lines 40–70). -/
def update_features_split_tests (feature_id : Nat) (now : Nat) (db : DB) : Except Err DB :=
  match db.features.find? (fun f => f.id == feature_id) with
  | none => .error .featureNotFound
  | some feature =>
    let environment_ids :=
      (db.feature_states.filter (fun fs => fs.feature_id == feature.id)).map
        (fun fs => fs.environment_id)
    let pairs := dedupF (qualifyingPairs db feature environment_ids)
    let env_keys := dedupF (pairs.map (fun p => p.1))
    saveEnvLoop get_hash_key get_multivariate_feature_state_value gather_split_test_metrics
      feature now env_keys pairs db

/-- One per-environment run of the reconciler, as a state transformer: a run
that raises leaves the database unchanged (all writes happen at the very end
of `_save_environment_split_test`). -/
def applyRun (rs : Feature × Nat × List String × Nat) (db : DB) : DB :=
  match save_environment_split_test get_hash_key get_multivariate_feature_state_value
      gather_split_test_metrics rs.1 rs.2.1 rs.2.2.1 rs.2.2.2 db with
  | .ok d => d
  | .error _ => db

/-- Any number of per-environment runs in succession. -/
def applyRuns (runs : List (Feature × Nat × List String × Nat)) (db : DB) : DB :=
  runs.foldl (fun db rs =>
    applyRun get_hash_key get_multivariate_feature_state_value gather_split_test_metrics rs db) db

end Pipeline

/-! ### Derived forms and row-level views used to state the claims.
`updatedRows`/`createdRows` are closed forms of the reconcile loop's output,
proved equal to `reconcileLoop` below. -/

/-- The rows handed to `bulk_update`, in iteration order: for every arm key
with an existing first-matching row, that row with its counted fields
overwritten. -/
def updatedRows (sts : List SplitTest) (f e : Nat) (cc : CountMap) (pv : Int) (now : Nat)
    (items : CountMap) : List SplitTest :=
  items.filterMap (fun kv =>
    (findRow sts f e kv.1).map (fun st => setValues st kv.2 ((alGet? cc kv.1).getD 0) pv now))

/-- The rows handed to `bulk_create`, in iteration order: a fresh row for
every arm key with no existing matching row. -/
def createdRows (sts : List SplitTest) (f e : Nat) (cc : CountMap) (pv : Int) (now : Nat)
    (items : CountMap) : List SplitTest :=
  items.filterMap (fun kv =>
    match findRow sts f e kv.1 with
    | some _ => none
    | none => some (newSplitTest f e kv.1 kv.2 ((alGet? cc kv.1).getD 0) pv now))

/-- The net effect of one `_save_environment_split_test` run on the
`SplitTest` table, given the computed counts and p-value. -/
def applySave (sts : List SplitTest) (f e : Nat) (ec cc : CountMap) (pv : Int) (now : Nat) :
    List SplitTest :=
  bulkCreate (bulkUpdate sts (updatedRows sts f e cc pv now ec)) (createdRows sts f e cc pv now ec)

/-- The (feature, environment, arm) key of a persisted row. -/
def stKey (st : SplitTest) : Nat × Nat × Option Nat :=
  (st.feature_id, st.environment_id, st.multivariate_feature_option_id)

/-- The primary keys of the persisted rows. -/
def stIds (sts : List SplitTest) : List Nat := sts.map (fun st => st.id)

/-- Primary-key uniqueness — a database integrity guarantee. -/
abbrev UniqueIds (sts : List SplitTest) : Prop := (stIds sts).Nodup

/-- At most one persisted row per (feature, environment, arm). -/
abbrev UniqueRowKeys (sts : List SplitTest) : Prop := (sts.map stKey).Nodup

/-- Erase the timestamp of a row, for comparisons "up to timestamps". -/
def stripTimestamp (st : SplitTest) : SplitTest := { st with updated_at := 0 }

/-- The stored `evaluation_count` of the first row matching an arm
(0 when no row exists). -/
def rowEvalCount (sts : List SplitTest) (f e : Nat) (k : Option Nat) : Nat :=
  ((findRow sts f e k).map (fun st => st.evaluation_count)).getD 0

/-! ### Concrete instantiations used by witnesses and counterexamples -/

/-- A concrete hash-key function: the bare identifier. -/
def cHK : Identity → Bool → String := fun i _ => i.identifier

/-- A concrete variant resolver: identities hashing to "u2" fall into
variant 10, everything else into Control. -/
def cMV : FeatureState → String → Option Nat := fun _ s => if s == "u2" then some 10 else none

/-- A concrete significance calculator. -/
def cPV : CountMap → CountMap → Int := fun _ _ => 0

/-- A concrete multivariate feature with one variant. -/
def wF : Feature :=
  { id := 1, name := "f", type := MULTIVARIATE, multivariate_option_ids := [10] }

/-- A concrete database: two exposed identities in environment 5, one of
which converted. -/
def wDB : DB :=
  { features := [wF]
    feature_states := [{ feature_id := 1, environment_id := 5 }]
    environments := [{ id := 5, use_identity_composite_key_for_hashing := false }]
    identities := [{ id := 100, environment_id := 5, identifier := "u1" },
                   { id := 101, environment_id := 5, identifier := "u2" }]
    raw_evaluations := [{ feature_name := "f", environment_id := 5, identity_identifier := some "u1" },
                        { feature_name := "f", environment_id := 5, identity_identifier := some "u2" }]
    conversion_events := [{ environment_id := 5, identity_id := 100 }]
    split_tests := [] }

/-- The database after one per-environment run on `wDB`. -/
def wOut : DB :=
  match save_environment_split_test cHK cMV cPV wF 5 ["u1", "u2"] 7 wDB with
  | .ok d => d
  | .error _ => wDB

/-- A database whose raw log names an identifier ("u1") with no `Identity`
record at all. -/
def dbC2 : DB :=
  { features := [wF]
    feature_states := [{ feature_id := 1, environment_id := 5 }]
    environments := [{ id := 5, use_identity_composite_key_for_hashing := false }]
    identities := []
    raw_evaluations := [{ feature_name := "f", environment_id := 5, identity_identifier := some "u1" }]
    conversion_events := []
    split_tests := [] }

/-- The database after one full run on `dbC2`. -/
def dbC2out : DB :=
  match update_features_split_tests cHK cMV cPV 1 0 dbC2 with
  | .ok d => d
  | .error _ => dbC2

/-- The database after one full `update_features_split_tests` run on `wDB`. -/
def wUpdOut : DB :=
  match update_features_split_tests cHK cMV cPV 1 0 wDB with
  | .ok d => d
  | .error _ => wDB

/-- A database whose only feature with id 1 exists but is not multivariate. -/
def dbC8 : DB :=
  { features := [{ id := 1, name := "g", type := "STANDARD", multivariate_option_ids := [] }]
    feature_states := []
    environments := []
    identities := []
    raw_evaluations := []
    conversion_events := []
    split_tests := [] }

/-! ### Count-map (Python dict) lemmas -/

theorem alKeys_nil : alKeys [] = [] := rfl

theorem alKeys_cons (p : Option Nat × Nat) (l : CountMap) :
    alKeys (p :: l) = p.1 :: alKeys l := rfl

theorem alSet_cons_self {k₀ : Option Nat} (v₀ : Nat) (rest : CountMap) (k : Option Nat) (v : Nat)
    (h : k₀ = k) : alSet ((k₀, v₀) :: rest) k v = (k₀, v) :: rest := by
  simp [alSet, h]

theorem alSet_cons_ne {k₀ : Option Nat} (v₀ : Nat) (rest : CountMap) (k : Option Nat) (v : Nat)
    (h : ¬k₀ = k) : alSet ((k₀, v₀) :: rest) k v = (k₀, v₀) :: alSet rest k v := by
  simp [alSet, h]

theorem alGet?_cons_self {k₀ : Option Nat} (v₀ : Nat) (rest : CountMap) (k : Option Nat)
    (h : k₀ = k) : alGet? ((k₀, v₀) :: rest) k = some v₀ := by
  simp [alGet?, h]

theorem alGet?_cons_ne {k₀ : Option Nat} (v₀ : Nat) (rest : CountMap) (k : Option Nat)
    (h : ¬k₀ = k) : alGet? ((k₀, v₀) :: rest) k = alGet? rest k := by
  simp [alGet?, h]

theorem alGet?_alSet_self (l : CountMap) (k : Option Nat) (v : Nat) :
    alGet? (alSet l k v) k = some v := by
  induction l with
  | nil => simp [alSet, alGet?]
  | cons p rest ih =>
    obtain ⟨k₀, v₀⟩ := p
    by_cases h : k₀ = k
    · rw [alSet_cons_self v₀ rest k v h, alGet?_cons_self v rest k h]
    · rw [alSet_cons_ne v₀ rest k v h, alGet?_cons_ne v₀ _ k h, ih]

theorem alGet?_alSet_ne (l : CountMap) {k k' : Option Nat} (v : Nat) (h : k' ≠ k) :
    alGet? (alSet l k v) k' = alGet? l k' := by
  induction l with
  | nil =>
    show alGet? [(k, v)] k' = none
    rw [alGet?_cons_ne v [] k' (fun hh => h hh.symm)]
    rfl
  | cons p rest ih =>
    obtain ⟨k₀, v₀⟩ := p
    by_cases h₀ : k₀ = k
    · rw [alSet_cons_self v₀ rest k v h₀]
      have hne : ¬k₀ = k' := fun hh => h (hh.symm.trans h₀)
      rw [alGet?_cons_ne v rest k' hne, alGet?_cons_ne v₀ rest k' hne]
    · rw [alSet_cons_ne v₀ rest k v h₀]
      by_cases h₁ : k₀ = k'
      · rw [alGet?_cons_self v₀ _ k' h₁, alGet?_cons_self v₀ rest k' h₁]
      · rw [alGet?_cons_ne v₀ _ k' h₁, alGet?_cons_ne v₀ rest k' h₁, ih]

theorem mem_alKeys_alSet (l : CountMap) (k k' : Option Nat) (v : Nat) :
    k' ∈ alKeys (alSet l k v) ↔ k' ∈ alKeys l ∨ k' = k := by
  induction l with
  | nil => simp [alSet, alKeys]
  | cons p rest ih =>
    obtain ⟨k₀, v₀⟩ := p
    by_cases h₀ : k₀ = k
    · rw [alSet_cons_self v₀ rest k v h₀, alKeys_cons, alKeys_cons]
      subst h₀
      simp only [List.mem_cons]
      tauto
    · rw [alSet_cons_ne v₀ rest k v h₀, alKeys_cons, alKeys_cons]
      simp only [List.mem_cons, ih]
      tauto

theorem alKeys_alSet_of_mem (l : CountMap) {k : Option Nat} (v : Nat) (h : k ∈ alKeys l) :
    alKeys (alSet l k v) = alKeys l := by
  induction l with
  | nil => simp [alKeys] at h
  | cons p rest ih =>
    obtain ⟨k₀, v₀⟩ := p
    by_cases h₀ : k₀ = k
    · rw [alSet_cons_self v₀ rest k v h₀, alKeys_cons, alKeys_cons]
    · rw [alKeys_cons, List.mem_cons] at h
      rcases h with h | h
      · exact absurd h.symm h₀
      · rw [alSet_cons_ne v₀ rest k v h₀, alKeys_cons, alKeys_cons, ih h]

theorem nodup_alKeys_alSet (l : CountMap) (k : Option Nat) (v : Nat)
    (h : (alKeys l).Nodup) : (alKeys (alSet l k v)).Nodup := by
  induction l with
  | nil => simp [alSet, alKeys]
  | cons p rest ih =>
    obtain ⟨k₀, v₀⟩ := p
    rw [alKeys_cons, List.nodup_cons] at h
    by_cases h₀ : k₀ = k
    · rw [alSet_cons_self v₀ rest k v h₀, alKeys_cons, List.nodup_cons]
      exact h
    · rw [alSet_cons_ne v₀ rest k v h₀, alKeys_cons, List.nodup_cons]
      refine ⟨fun hk => ?_, ih h.2⟩
      rcases (mem_alKeys_alSet rest k k₀ v).1 hk with h' | h'
      · exact h.1 h'
      · exact h₀ h'

theorem mem_alKeys_of_get (l : CountMap) {k : Option Nat} {v : Nat}
    (h : alGet? l k = some v) : k ∈ alKeys l := by
  induction l with
  | nil => simp [alGet?] at h
  | cons p rest ih =>
    obtain ⟨k₀, v₀⟩ := p
    rw [alKeys_cons, List.mem_cons]
    by_cases h₀ : k₀ = k
    · exact Or.inl h₀.symm
    · rw [alGet?_cons_ne v₀ rest k h₀] at h
      exact Or.inr (ih h)

theorem get_of_mem_alKeys (l : CountMap) {k : Option Nat} (h : k ∈ alKeys l) :
    ∃ v, alGet? l k = some v ∧ (k, v) ∈ l := by
  induction l with
  | nil => simp [alKeys] at h
  | cons p rest ih =>
    obtain ⟨k₀, v₀⟩ := p
    by_cases h₀ : k₀ = k
    · subst h₀
      exact ⟨v₀, alGet?_cons_self v₀ rest k₀ rfl, by simp⟩
    · rw [alKeys_cons, List.mem_cons] at h
      rcases h with h | h
      · exact absurd h.symm h₀
      · obtain ⟨v, hv, hmem⟩ := ih h
        exact ⟨v, by rw [alGet?_cons_ne v₀ rest k h₀, hv], by simp [hmem]⟩

theorem get_eq_of_mem_nodup (l : CountMap) {k : Option Nat} {v : Nat}
    (hn : (alKeys l).Nodup) (h : (k, v) ∈ l) : alGet? l k = some v := by
  induction l with
  | nil => simp at h
  | cons p rest ih =>
    obtain ⟨k₀, v₀⟩ := p
    rw [alKeys_cons, List.nodup_cons] at hn
    rcases List.mem_cons.1 h with h | h
    · rw [Prod.mk.injEq] at h
      exact h.2 ▸ alGet?_cons_self v₀ rest k h.1.symm
    · have hk : ¬k₀ = k := by
        intro he
        subst he
        exact hn.1 (by simpa [alKeys] using List.mem_map_of_mem (fun p => p.1) h)
      rw [alGet?_cons_ne v₀ rest k hk]
      exact ih hn.2 h

theorem alSum_cons (p : Option Nat × Nat) (l : CountMap) :
    alSum (p :: l) = p.2 + alSum l := by
  simp [alSum]

theorem alSum_alSet_of_get (l : CountMap) {k : Option Nat} {v : Nat} (w : Nat)
    (h : alGet? l k = some v) : alSum (alSet l k w) + v = alSum l + w := by
  induction l with
  | nil => simp [alGet?] at h
  | cons p rest ih =>
    obtain ⟨k₀, v₀⟩ := p
    by_cases h₀ : k₀ = k
    · rw [alGet?_cons_self v₀ rest k h₀] at h
      obtain rfl : v₀ = v := Option.some.inj h
      rw [alSet_cons_self v₀ rest k w h₀, alSum_cons, alSum_cons]
      omega
    · rw [alGet?_cons_ne v₀ rest k h₀] at h
      have := ih h
      rw [alSet_cons_ne v₀ rest k w h₀, alSum_cons, alSum_cons]
      omega

theorem snd_of_mem_alSet (l : CountMap) (k : Option Nat) (v : Nat) {p : Option Nat × Nat}
    (h : p ∈ alSet l k v) : p.2 = v ∨ p ∈ l := by
  induction l with
  | nil =>
    rw [show alSet [] k v = [(k, v)] from rfl, List.mem_singleton] at h
    exact Or.inl (by rw [h])
  | cons q rest ih =>
    obtain ⟨k₀, v₀⟩ := q
    by_cases h₀ : k₀ = k
    · rw [alSet_cons_self v₀ rest k v h₀, List.mem_cons] at h
      rcases h with h | h
      · exact Or.inl (by rw [h])
      · exact Or.inr (by simp [h])
    · rw [alSet_cons_ne v₀ rest k v h₀, List.mem_cons] at h
      rcases h with h | h
      · exact Or.inr (by simp [h])
      · rcases ih h with h' | h'
        · exact Or.inl h'
        · exact Or.inr (by simp [h'])

theorem alSum_eq_zero (l : CountMap) (h : ∀ p ∈ l, p.2 = 0) : alSum l = 0 := by
  induction l with
  | nil => simp [alSum]
  | cons p rest ih =>
    rw [alSum_cons, h p (by simp), ih (fun q hq => h q (by simp [hq]))]

/-! ### `alIncr` lemmas -/

theorem alIncr_ok (l : CountMap) (k : Option Nat) {l' : CountMap}
    (h : alIncr l k = .ok l') :
    ∃ v, alGet? l k = some v ∧ l' = alSet l k (v + 1) := by
  unfold alIncr at h
  cases hg : alGet? l k with
  | none => rw [hg] at h; cases h
  | some v => rw [hg] at h; exact ⟨v, rfl, (Except.ok.injEq .. ▸ h).symm⟩

theorem alIncr_error (l : CountMap) (k : Option Nat) {e : Err}
    (h : alIncr l k = .error e) : e = .keyError := by
  unfold alIncr at h
  cases hg : alGet? l k with
  | none => rw [hg] at h; exact (Except.error.injEq .. ▸ h).symm
  | some v => rw [hg] at h; cases h

theorem alIncr_ok_keys (l : CountMap) (k : Option Nat) {l' : CountMap}
    (h : alIncr l k = .ok l') : alKeys l' = alKeys l := by
  obtain ⟨v, hg, rfl⟩ := alIncr_ok l k h
  exact alKeys_alSet_of_mem l (v + 1) (mem_alKeys_of_get l hg)

theorem alIncr_ok_sum (l : CountMap) (k : Option Nat) {l' : CountMap}
    (h : alIncr l k = .ok l') : alSum l' = alSum l + 1 := by
  obtain ⟨v, hg, rfl⟩ := alIncr_ok l k h
  have := alSum_alSet_of_get l (v + 1) hg
  omega

theorem alIncr_ok_get_self (l : CountMap) (k : Option Nat) {l' : CountMap}
    (h : alIncr l k = .ok l') :
    ∃ v, alGet? l k = some v ∧ alGet? l' k = some (v + 1) := by
  obtain ⟨v, hg, rfl⟩ := alIncr_ok l k h
  exact ⟨v, hg, alGet?_alSet_self l k (v + 1)⟩

theorem alIncr_ok_get_ne (l : CountMap) (k : Option Nat) {l' : CountMap} {k' : Option Nat}
    (h : alIncr l k = .ok l') (hne : k' ≠ k) : alGet? l' k' = alGet? l k' := by
  obtain ⟨v, _, rfl⟩ := alIncr_ok l k h
  exact alGet?_alSet_ne l (v + 1) hne

/-! ### `initCounts` lemmas -/

theorem mem_alKeys_foldl (opts : List Nat) (acc : CountMap) (k : Option Nat) :
    k ∈ alKeys (opts.foldl (fun acc oid => alSet acc (some oid) 0) acc) ↔
      k ∈ alKeys acc ∨ ∃ oid ∈ opts, k = some oid := by
  induction opts generalizing acc with
  | nil => simp
  | cons o rest ih =>
    simp only [List.foldl_cons, ih, mem_alKeys_alSet, List.mem_cons]
    constructor
    · rintro ((h | h) | ⟨oid, ho, rfl⟩)
      · exact Or.inl h
      · exact Or.inr ⟨o, Or.inl rfl, h⟩
      · exact Or.inr ⟨oid, Or.inr ho, rfl⟩
    · rintro (h | ⟨oid, (rfl | ho), rfl⟩)
      · exact Or.inl (Or.inl h)
      · exact Or.inl (Or.inr rfl)
      · exact Or.inr ⟨oid, ho, rfl⟩

theorem mem_alKeys_initCounts (f : Feature) (k : Option Nat) :
    k ∈ alKeys (initCounts f) ↔ k = none ∨ ∃ oid ∈ f.multivariate_option_ids, k = some oid := by
  unfold initCounts
  rw [mem_alKeys_alSet, mem_alKeys_foldl]
  constructor
  · rintro ((h | h) | h)
    · simp [alKeys] at h
    · exact Or.inr h
    · exact Or.inl h
  · rintro (h | h)
    · exact Or.inr h
    · exact Or.inl (Or.inr h)

theorem nodup_alKeys_foldl (opts : List Nat) (acc : CountMap) (h : (alKeys acc).Nodup) :
    (alKeys (opts.foldl (fun acc oid => alSet acc (some oid) 0) acc)).Nodup := by
  induction opts generalizing acc with
  | nil => exact h
  | cons o rest ih => exact ih _ (nodup_alKeys_alSet acc (some o) 0 h)

theorem nodup_alKeys_initCounts (f : Feature) : (alKeys (initCounts f)).Nodup := by
  unfold initCounts
  exact nodup_alKeys_alSet _ none 0 (nodup_alKeys_foldl _ [] (by simp [alKeys]))

theorem snd_zero_foldl (opts : List Nat) (acc : CountMap) (h : ∀ p ∈ acc, p.2 = 0) :
    ∀ p ∈ opts.foldl (fun acc oid => alSet acc (some oid) 0) acc, p.2 = 0 := by
  induction opts generalizing acc with
  | nil => exact h
  | cons o rest ih =>
    refine ih _ (fun p hp => ?_)
    rcases snd_of_mem_alSet acc (some o) 0 hp with h' | h'
    · exact h'
    · exact h p h'

theorem alSum_initCounts (f : Feature) : alSum (initCounts f) = 0 := by
  refine alSum_eq_zero _ (fun p hp => ?_)
  unfold initCounts at hp
  rcases snd_of_mem_alSet _ none 0 hp with h | h
  · exact h
  · exact snd_zero_foldl _ [] (by simp) p h

/-! ### Aggregation-loop lemmas -/

theorem countsLoop_ok_spec (resolve : Identity → Option Nat) (convIds : List Nat)
    (ids : List Identity) (ec cc : CountMap) {ec' cc' : CountMap}
    (h : countsLoop resolve convIds ids ec cc = .ok (ec', cc')) :
    alKeys ec' = alKeys ec ∧ alKeys cc' = alKeys cc ∧ alSum ec' = alSum ec + ids.length := by
  induction ids generalizing ec cc with
  | nil =>
    unfold countsLoop at h
    simp only [Except.ok.injEq, Prod.mk.injEq] at h
    obtain ⟨rfl, rfl⟩ := h
    exact ⟨rfl, rfl, by simp⟩
  | cons i rest ih =>
    unfold countsLoop at h
    cases hec : alIncr ec (resolve i) with
    | error err => rw [hec] at h; cases h
    | ok ec1 =>
      rw [hec] at h
      have hk := alIncr_ok_keys ec (resolve i) hec
      have hs := alIncr_ok_sum ec (resolve i) hec
      cases hc : convIds.contains i.id with
      | false =>
        rw [hc] at h
        simp only [Bool.false_eq_true, if_false] at h
        obtain ⟨h1, h2, h3⟩ := ih ec1 cc h
        refine ⟨h1.trans hk, h2, ?_⟩
        rw [h3, hs, List.length_cons]
        omega
      | true =>
        rw [hc] at h
        simp only [if_true] at h
        cases hcc : alIncr cc (resolve i) with
        | error err => rw [hcc] at h; cases h
        | ok cc1 =>
          rw [hcc] at h
          have hkc := alIncr_ok_keys cc (resolve i) hcc
          obtain ⟨h1, h2, h3⟩ := ih ec1 cc1 h
          refine ⟨h1.trans hk, h2.trans hkc, ?_⟩
          rw [h3, hs, List.length_cons]
          omega

theorem countsLoop_ok_le (resolve : Identity → Option Nat) (convIds : List Nat)
    (ids : List Identity) (ec cc : CountMap) {ec' cc' : CountMap}
    (h : countsLoop resolve convIds ids ec cc = .ok (ec', cc'))
    (hle : ∀ k, (alGet? cc k).getD 0 ≤ (alGet? ec k).getD 0) :
    ∀ k, (alGet? cc' k).getD 0 ≤ (alGet? ec' k).getD 0 := by
  induction ids generalizing ec cc with
  | nil =>
    unfold countsLoop at h
    simp only [Except.ok.injEq, Prod.mk.injEq] at h
    obtain ⟨rfl, rfl⟩ := h
    exact hle
  | cons i rest ih =>
    unfold countsLoop at h
    cases hec : alIncr ec (resolve i) with
    | error err => rw [hec] at h; cases h
    | ok ec1 =>
      rw [hec] at h
      obtain ⟨v, hv, hv1⟩ := alIncr_ok_get_self ec (resolve i) hec
      cases hc : convIds.contains i.id with
      | false =>
        rw [hc] at h
        simp only [Bool.false_eq_true, if_false] at h
        refine ih ec1 cc h (fun k => ?_)
        by_cases hk : k = resolve i
        · rw [hk, hv1]
          have h2 := hle (resolve i)
          rw [hv] at h2
          simp only [Option.getD_some] at h2 ⊢
          omega
        · rw [alIncr_ok_get_ne ec (resolve i) hec hk]
          exact hle k
      | true =>
        rw [hc] at h
        simp only [if_true] at h
        cases hcc : alIncr cc (resolve i) with
        | error err => rw [hcc] at h; cases h
        | ok cc1 =>
          rw [hcc] at h
          obtain ⟨w, hw, hw1⟩ := alIncr_ok_get_self cc (resolve i) hcc
          refine ih ec1 cc1 h (fun k => ?_)
          by_cases hk : k = resolve i
          · rw [hk, hv1, hw1]
            have h2 := hle (resolve i)
            rw [hv, hw] at h2
            simp only [Option.getD_some] at h2 ⊢
            omega
          · rw [alIncr_ok_get_ne ec (resolve i) hec hk,
              alIncr_ok_get_ne cc (resolve i) hcc hk]
            exact hle k

theorem countsLoop_congr (resolve : Identity → Option Nat) {convIds1 convIds2 : List Nat}
    (hc : ∀ x, convIds1.contains x = convIds2.contains x)
    (ids : List Identity) (ec cc : CountMap) :
    countsLoop resolve convIds1 ids ec cc = countsLoop resolve convIds2 ids ec cc := by
  induction ids generalizing ec cc with
  | nil => rfl
  | cons i rest ih =>
    unfold countsLoop
    rw [hc i.id]
    cases alIncr ec (resolve i) with
    | error err => rfl
    | ok ec1 =>
      cases hcx : convIds2.contains i.id with
      | false => simp only [Bool.false_eq_true, if_false]; exact ih ec1 cc
      | true =>
        simp only [if_true]
        cases alIncr cc (resolve i) with
        | error err => rfl
        | ok cc1 => exact ih ec1 cc1

theorem countsLoop_error (resolve : Identity → Option Nat) (convIds : List Nat)
    (ids : List Identity) (ec cc : CountMap) {err : Err}
    (h : countsLoop resolve convIds ids ec cc = .error err) : err = .keyError := by
  induction ids generalizing ec cc with
  | nil => unfold countsLoop at h; cases h
  | cons i rest ih =>
    unfold countsLoop at h
    cases hec : alIncr ec (resolve i) with
    | error e0 =>
      rw [hec] at h
      cases h
      exact alIncr_error ec (resolve i) hec
    | ok ec1 =>
      rw [hec] at h
      cases hc : convIds.contains i.id with
      | false =>
        rw [hc] at h
        simp only [Bool.false_eq_true, if_false] at h
        exact ih ec1 cc h
      | true =>
        rw [hc] at h
        simp only [if_true] at h
        cases hcc : alIncr cc (resolve i) with
        | error e0 =>
          rw [hcc] at h
          cases h
          exact alIncr_error cc (resolve i) hcc
        | ok cc1 =>
          rw [hcc] at h
          exact ih ec1 cc1 h

/-! ### Reconcile-loop lemmas -/

theorem find?_filter_and {α : Type} (l : List α) (p q : α → Bool) :
    (l.filter p).find? q = l.find? (fun a => p a && q a) := by
  induction l with
  | nil => rfl
  | cons a rest ih =>
    by_cases hp : p a
    · rw [List.filter_cons_of_pos hp]
      by_cases hq : q a
      · rw [List.find?_cons_of_pos _ hq, List.find?_cons_of_pos _ (by simp [hp, hq])]
      · rw [List.find?_cons_of_neg _ hq, List.find?_cons_of_neg _ (by simp [hq]), ih]
    · rw [List.filter_cons_of_neg hp, List.find?_cons_of_neg _ (by simp [hp]), ih]

theorem filter_find?_keyMatches (sts : List SplitTest) (f e : Nat) (k : Option Nat) :
    (sts.filter (envFeatureMatches f e)).find? (keyMatches k) = findRow sts f e k := by
  rw [find?_filter_and]
  rfl

theorem reconcileLoop_ok (qs : List SplitTest) (sts : List SplitTest) (cc : CountMap) (pv : Int)
    (f e now : Nat) (items : CountMap)
    (hqs : qs = sts.filter (envFeatureMatches f e))
    (hsome : ∀ kv ∈ items, (alGet? cc kv.1).isSome) :
    reconcileLoop qs cc pv f e now items =
      .ok (updatedRows sts f e cc pv now items, createdRows sts f e cc pv now items) := by
  subst hqs
  induction items with
  | nil => rfl
  | cons kv rest ih =>
    obtain ⟨k, ev⟩ := kv
    have hk := hsome (k, ev) (by simp)
    unfold reconcileLoop
    cases hg : alGet? cc k with
    | none => rw [hg] at hk; cases hk
    | some cv =>
      rw [ih (fun kv hkv => hsome kv (by simp [hkv]))]
      rw [filter_find?_keyMatches sts f e k]
      cases hf : findRow sts f e k with
      | some st =>
        simp only [updatedRows, createdRows, List.filterMap_cons, hf, Option.map_some, hg]
        rfl
      | none =>
        simp only [updatedRows, createdRows, List.filterMap_cons, hf, Option.map_none, hg]
        rfl

theorem rowMatches_iff (f e : Nat) (k : Option Nat) (st : SplitTest) :
    rowMatches f e k st = true ↔ stKey st = (f, e, k) := by
  unfold rowMatches envFeatureMatches keyMatches stKey
  simp only [Bool.and_eq_true, beq_iff_eq, Prod.mk.injEq]
  tauto

theorem rowMatches_congr {a b : SplitTest} (h : stKey a = stKey b) (f e : Nat) (k : Option Nat) :
    rowMatches f e k a = rowMatches f e k b := by
  unfold stKey at h
  simp only [Prod.mk.injEq] at h
  obtain ⟨h1, h2, h3⟩ := h
  unfold rowMatches envFeatureMatches keyMatches
  rw [h1, h2, h3]

theorem stKey_setValues (st : SplitTest) (ev cv : Nat) (pv : Int) (now : Nat) :
    stKey (setValues st ev cv pv now) = stKey st := rfl

theorem id_setValues (st : SplitTest) (ev cv : Nat) (pv : Int) (now : Nat) :
    (setValues st ev cv pv now).id = st.id := rfl

theorem stKey_setId (st : SplitTest) (j : Nat) : stKey { st with id := j } = stKey st := rfl

theorem stKey_newSplitTest (f e : Nat) (k : Option Nat) (ev cv : Nat) (pv : Int) (now : Nat) :
    stKey (newSplitTest f e k ev cv pv now) = (f, e, k) := rfl

theorem eq_of_mem_uniqueIds {sts : List SplitTest} (h : UniqueIds sts) {a b : SplitTest}
    (ha : a ∈ sts) (hb : b ∈ sts) (hid : a.id = b.id) : a = b :=
  List.inj_on_of_nodup_map h ha hb hid

theorem mem_updatedRows {sts : List SplitTest} {f e : Nat} {cc : CountMap} {pv : Int} {now : Nat}
    {items : CountMap} {u : SplitTest} (h : u ∈ updatedRows sts f e cc pv now items) :
    ∃ k v r, (k, v) ∈ items ∧ findRow sts f e k = some r ∧
      u = setValues r v ((alGet? cc k).getD 0) pv now := by
  simp only [updatedRows, List.mem_filterMap] at h
  obtain ⟨kv, hkv, hmap⟩ := h
  cases hf : findRow sts f e kv.1 with
  | none => rw [hf] at hmap; cases hmap
  | some r =>
    rw [hf] at hmap
    exact ⟨kv.1, kv.2, r, by simpa using hkv, hf, (Option.some.inj hmap).symm⟩

theorem mem_createdRows {sts : List SplitTest} {f e : Nat} {cc : CountMap} {pv : Int} {now : Nat}
    {items : CountMap} {n : SplitTest} (h : n ∈ createdRows sts f e cc pv now items) :
    ∃ k v, (k, v) ∈ items ∧ findRow sts f e k = none ∧
      n = newSplitTest f e k v ((alGet? cc k).getD 0) pv now := by
  simp only [createdRows, List.mem_filterMap] at h
  obtain ⟨kv, hkv, hmap⟩ := h
  cases hf : findRow sts f e kv.1 with
  | some r => rw [hf] at hmap; cases hmap
  | none =>
    rw [hf] at hmap
    exact ⟨kv.1, kv.2, by simpa using hkv, hf, (Option.some.inj hmap).symm⟩

theorem updatedRows_meta {sts : List SplitTest} {f e : Nat} {cc : CountMap} {pv : Int} {now : Nat}
    {items : CountMap} {u : SplitTest} (h : u ∈ updatedRows sts f e cc pv now items) :
    ∃ r ∈ sts, r.id = u.id ∧ stKey r = stKey u := by
  obtain ⟨k, v, r, _, hf, rfl⟩ := mem_updatedRows h
  exact ⟨r, List.mem_of_find?_eq_some hf, rfl, rfl⟩

theorem buFun_eq (sts upd : List SplitTest) (hids : UniqueIds sts)
    (hupd : ∀ u ∈ upd, ∃ r ∈ sts, r.id = u.id ∧ stKey r = stKey u)
    {st : SplitTest} (hst : st ∈ sts) :
    stKey ((upd.find? (fun u => u.id == st.id)).getD st) = stKey st ∧
    ((upd.find? (fun u => u.id == st.id)).getD st).id = st.id := by
  cases hf : upd.find? (fun u => u.id == st.id) with
  | none => exact ⟨rfl, rfl⟩
  | some u =>
    have hid : u.id = st.id := by simpa using List.find?_some hf
    obtain ⟨r, hr, hrid, hrkey⟩ := hupd u (List.mem_of_find?_eq_some hf)
    have : r = st := eq_of_mem_uniqueIds hids hr hst (hrid.trans hid)
    rw [Option.getD_some]
    exact ⟨(this ▸ hrkey).symm, hid⟩

theorem stIds_bulkUpdate (sts upd : List SplitTest) : stIds (bulkUpdate sts upd) = stIds sts := by
  unfold stIds bulkUpdate
  rw [List.map_map]
  refine List.map_congr_left (fun st hst => ?_)
  simp only [Function.comp_apply]
  cases hf : upd.find? (fun u => u.id == st.id) with
  | none => rfl
  | some u =>
    rw [Option.getD_some]
    simpa using List.find?_some hf

theorem stKeys_bulkUpdate (sts upd : List SplitTest) (hids : UniqueIds sts)
    (hupd : ∀ u ∈ upd, ∃ r ∈ sts, r.id = u.id ∧ stKey r = stKey u) :
    (bulkUpdate sts upd).map stKey = sts.map stKey := by
  unfold bulkUpdate
  rw [List.map_map]
  exact List.map_congr_left (fun st hst => (buFun_eq sts upd hids hupd hst).1)

theorem le_maxId {st : SplitTest} {sts : List SplitTest} (h : st ∈ sts) : st.id ≤ maxId sts := by
  induction sts with
  | nil => simp at h
  | cons a rest ih =>
    have hm : maxId (a :: rest) = max a.id (maxId rest) := rfl
    rcases List.mem_cons.1 h with h | h
    · rw [h, hm]; exact le_max_left _ _
    · rw [hm]; exact le_trans (ih h) (le_max_right _ _)

theorem mem_withFreshIds {s : Nat} {l : List SplitTest} {st : SplitTest}
    (h : st ∈ withFreshIds s l) : ∃ n ∈ l, ∃ j, st = { n with id := j } := by
  induction l generalizing s with
  | nil => cases h
  | cons n rest ih =>
    rw [show withFreshIds s (n :: rest) = { n with id := s } :: withFreshIds (s + 1) rest from rfl,
      List.mem_cons] at h
    rcases h with h | h
    · exact ⟨n, by simp, s, h⟩
    · obtain ⟨n', hn', j, hj⟩ := ih h
      exact ⟨n', by simp [hn'], j, hj⟩

theorem ge_of_mem_stIds_withFreshIds {s : Nat} {l : List SplitTest} {x : Nat}
    (h : x ∈ stIds (withFreshIds s l)) : s ≤ x := by
  induction l generalizing s with
  | nil => cases h
  | cons n rest ih =>
    rw [show withFreshIds s (n :: rest) = { n with id := s } :: withFreshIds (s + 1) rest from rfl,
      show stIds ({ n with id := s } :: withFreshIds (s + 1) rest)
        = s :: stIds (withFreshIds (s + 1) rest) from rfl] at h
    rcases List.mem_cons.1 h with h | h
    · omega
    · exact le_trans (by omega) (ih h)

theorem nodup_stIds_withFreshIds (s : Nat) (l : List SplitTest) :
    (stIds (withFreshIds s l)).Nodup := by
  induction l generalizing s with
  | nil => simp [withFreshIds, stIds]
  | cons n rest ih =>
    rw [show withFreshIds s (n :: rest) = { n with id := s } :: withFreshIds (s + 1) rest from rfl,
      show stIds ({ n with id := s } :: withFreshIds (s + 1) rest)
        = s :: stIds (withFreshIds (s + 1) rest) from rfl, List.nodup_cons]
    exact ⟨fun hmem => by have := ge_of_mem_stIds_withFreshIds hmem; omega, ih (s + 1)⟩

theorem stKeys_withFreshIds (s : Nat) (l : List SplitTest) :
    (withFreshIds s l).map stKey = l.map stKey := by
  induction l generalizing s with
  | nil => rfl
  | cons n rest ih =>
    rw [show withFreshIds s (n :: rest) = { n with id := s } :: withFreshIds (s + 1) rest from rfl,
      List.map_cons, List.map_cons, ih, stKey_setId]

theorem find?_withFreshIds_none {p : SplitTest → Bool} (hp : ∀ st j, p { st with id := j } = p st)
    (s : Nat) (l : List SplitTest) (h : l.find? p = none) :
    (withFreshIds s l).find? p = none := by
  rw [List.find?_eq_none] at h ⊢
  intro st hst
  obtain ⟨n, hn, j, rfl⟩ := mem_withFreshIds hst
  rw [hp n j]
  exact h n hn

theorem find?_withFreshIds_some {p : SplitTest → Bool} (hp : ∀ st j, p { st with id := j } = p st)
    (s : Nat) (l : List SplitTest) {n : SplitTest} (h : l.find? p = some n) :
    ∃ j, (withFreshIds s l).find? p = some { n with id := j } := by
  induction l generalizing s with
  | nil => cases h
  | cons a rest ih =>
    rw [show withFreshIds s (a :: rest) = { a with id := s } :: withFreshIds (s + 1) rest from rfl]
    cases hpa : p a with
    | true =>
      rw [List.find?_cons_of_pos _ hpa] at h
      obtain rfl := Option.some.inj h
      exact ⟨s, List.find?_cons_of_pos _ (by rw [hp a s]; exact hpa)⟩
    | false =>
      rw [List.find?_cons_of_neg _ (by simp [hpa])] at h
      obtain ⟨j, hj⟩ := ih (s + 1) h
      exact ⟨j, by rw [List.find?_cons_of_neg _ (by rw [hp a s]; simp [hpa]), hj]⟩

theorem find?_congr_mem {α : Type} {p q : α → Bool} :
    ∀ {l : List α}, (∀ a ∈ l, p a = q a) → l.find? p = l.find? q
  | [], _ => rfl
  | a :: l, h => by
    have ha := h a (by simp)
    cases hq : q a with
    | true =>
      rw [List.find?_cons_of_pos _ (ha.trans hq), List.find?_cons_of_pos _ hq]
    | false =>
      rw [List.find?_cons_of_neg _ (by simp [ha.trans hq]),
        List.find?_cons_of_neg _ (by simp [hq])]
      exact find?_congr_mem (fun x hx => h x (by simp [hx]))

theorem env_eq_of_stKey {a b : SplitTest} (h : stKey a = stKey b) :
    a.environment_id = b.environment_id := by
  unfold stKey at h
  simp only [Prod.mk.injEq] at h
  exact h.2.1

theorem find?_bulkUpdate (sts upd : List SplitTest) (hids : UniqueIds sts)
    (hupd : ∀ u ∈ upd, ∃ r ∈ sts, r.id = u.id ∧ stKey r = stKey u)
    (f e : Nat) (k : Option Nat) :
    (bulkUpdate sts upd).find? (rowMatches f e k) =
      (sts.find? (rowMatches f e k)).map
        (fun r => (upd.find? (fun u => u.id == r.id)).getD r) := by
  unfold bulkUpdate
  rw [List.find?_map]
  congr 1
  refine find?_congr_mem (fun st hst => ?_)
  simp only [Function.comp_apply]
  exact rowMatches_congr ((buFun_eq sts upd hids hupd hst).1) f e k

theorem updatedRows_find_id (sts : List SplitTest) (f e : Nat) (cc : CountMap) (pv : Int)
    (now : Nat) (items : CountMap) (hids : UniqueIds sts) (hkeys : (alKeys items).Nodup)
    {k : Option Nat} {v : Nat} (hkv : (k, v) ∈ items) {r : SplitTest}
    (hr : findRow sts f e k = some r) :
    (updatedRows sts f e cc pv now items).find? (fun u => u.id == r.id) =
      some (setValues r v ((alGet? cc k).getD 0) pv now) := by
  induction items with
  | nil => cases hkv
  | cons kv0 rest ih =>
    obtain ⟨k₁, v₁⟩ := kv0
    rw [alKeys_cons, List.nodup_cons] at hkeys
    rcases List.mem_cons.1 hkv with hh | hh
    · obtain ⟨rfl, rfl⟩ : k = k₁ ∧ v = v₁ := by rw [Prod.mk.injEq] at hh; exact hh
      simp only [updatedRows, List.filterMap_cons, hr, Option.map_some']
      rw [List.find?_cons_of_pos _ (by simp [setValues])]
    · have hne : k₁ ≠ k := fun hcon => hkeys.1 (hcon ▸ List.mem_map_of_mem (fun p => p.1) hh)
      simp only [updatedRows, List.filterMap_cons]
      cases hf1 : findRow sts f e k₁ with
      | none =>
        simp only [hf1, Option.map_none']
        exact ih hkeys.2 hh
      | some r₁ =>
        simp only [hf1, Option.map_some']
        rw [List.find?_cons_of_neg]
        · exact ih hkeys.2 hh
        · intro hcon
          simp only [id_setValues, beq_iff_eq] at hcon
          have hr₁ : r₁ = r :=
            eq_of_mem_uniqueIds hids (List.mem_of_find?_eq_some hf1)
              (List.mem_of_find?_eq_some hr) hcon
          have hk₁ : stKey r₁ = (f, e, k₁) := (rowMatches_iff f e k₁ r₁).1 (List.find?_some hf1)
          have hk : stKey r = (f, e, k) := (rowMatches_iff f e k r).1 (List.find?_some hr)
          rw [hr₁, hk] at hk₁
          simp only [Prod.mk.injEq] at hk₁
          exact hne hk₁.2.2.symm

theorem createdRows_find (sts : List SplitTest) (f e : Nat) (cc : CountMap) (pv : Int)
    (now : Nat) (items : CountMap) (hkeys : (alKeys items).Nodup)
    {k : Option Nat} {v : Nat} (hkv : (k, v) ∈ items) (hnone : findRow sts f e k = none) :
    (createdRows sts f e cc pv now items).find? (rowMatches f e k) =
      some (newSplitTest f e k v ((alGet? cc k).getD 0) pv now) := by
  induction items with
  | nil => cases hkv
  | cons kv0 rest ih =>
    obtain ⟨k₁, v₁⟩ := kv0
    rw [alKeys_cons, List.nodup_cons] at hkeys
    rcases List.mem_cons.1 hkv with hh | hh
    · obtain ⟨rfl, rfl⟩ : k = k₁ ∧ v = v₁ := by rw [Prod.mk.injEq] at hh; exact hh
      simp only [createdRows, List.filterMap_cons, hnone]
      rw [List.find?_cons_of_pos _ (by rw [rowMatches_iff, stKey_newSplitTest])]
    · have hne : k₁ ≠ k := fun hcon => hkeys.1 (hcon ▸ List.mem_map_of_mem (fun p => p.1) hh)
      simp only [createdRows, List.filterMap_cons]
      cases hf1 : findRow sts f e k₁ with
      | some r₁ =>
        simp only [hf1]
        exact ih hkeys.2 hh
      | none =>
        simp only [hf1]
        rw [List.find?_cons_of_neg]
        · exact ih hkeys.2 hh
        · intro hcon
          rw [rowMatches_iff, stKey_newSplitTest] at hcon
          simp only [Prod.mk.injEq] at hcon
          exact hne hcon.2.2

theorem applySave_find (sts : List SplitTest) (f e : Nat) (ec cc : CountMap) (pv : Int)
    (now : Nat) (hids : UniqueIds sts) (hkeys : (alKeys ec).Nodup)
    {k : Option Nat} (hk : k ∈ alKeys ec) :
    ∃ st, findRow (applySave sts f e ec cc pv now) f e k = some st ∧
      st.evaluation_count = (alGet? ec k).getD 0 ∧
      st.conversion_count = (alGet? cc k).getD 0 ∧
      st.pvalue = pv ∧ st.updated_at = now ∧ stKey st = (f, e, k) := by
  obtain ⟨v, hv, hvmem⟩ := get_of_mem_alKeys ec hk
  have hupd : ∀ u ∈ updatedRows sts f e cc pv now ec,
      ∃ r ∈ sts, r.id = u.id ∧ stKey r = stKey u := fun u hu => updatedRows_meta hu
  unfold applySave bulkCreate findRow
  rw [List.find?_append, find?_bulkUpdate sts _ hids hupd f e k]
  cases hf : sts.find? (rowMatches f e k) with
  | some r =>
    rw [Option.map_some']
    have hfind := updatedRows_find_id sts f e cc pv now ec hids hkeys hvmem hf
    rw [hfind, Option.getD_some, Option.or_some]
    refine ⟨setValues r v ((alGet? cc k).getD 0) pv now, rfl, ?_, rfl, rfl, rfl, ?_⟩
    · rw [hv]
      rfl
    · rw [stKey_setValues]
      exact (rowMatches_iff f e k r).1 (List.find?_some hf)
  | none =>
    rw [Option.map_none', Option.none_or]
    have hcf := createdRows_find sts f e cc pv now ec hkeys hvmem hf
    obtain ⟨j, hj⟩ := find?_withFreshIds_some (p := rowMatches f e k) (fun st j => rfl) _ _ hcf
    refine ⟨_, hj, ?_, rfl, rfl, rfl, ?_⟩
    · rw [hv]
      rfl
    · rw [stKey_setId, stKey_newSplitTest]

theorem stIds_append (a b : List SplitTest) : stIds (a ++ b) = stIds a ++ stIds b :=
  List.map_append _ a b

theorem uniqueIds_applySave (sts : List SplitTest) (f e : Nat) (ec cc : CountMap) (pv : Int)
    (now : Nat) (hids : UniqueIds sts) : UniqueIds (applySave sts f e ec cc pv now) := by
  unfold applySave bulkCreate UniqueIds
  rw [stIds_append, List.nodup_append]
  refine ⟨by rw [stIds_bulkUpdate]; exact hids, nodup_stIds_withFreshIds _ _, ?_⟩
  intro a ha hb
  have h1 : a ≤ maxId (bulkUpdate sts (updatedRows sts f e cc pv now ec)) := by
    obtain ⟨st, hst, rfl⟩ := List.mem_map.1 ha
    exact le_maxId hst
  have h2 := ge_of_mem_stIds_withFreshIds hb
  omega

theorem mem_stIds_applySave {st : SplitTest} {sts : List SplitTest} (h : st ∈ sts)
    (f e : Nat) (ec cc : CountMap) (pv : Int) (now : Nat) :
    st.id ∈ stIds (applySave sts f e ec cc pv now) := by
  unfold applySave bulkCreate
  rw [stIds_append]
  refine List.mem_append.2 (Or.inl ?_)
  rw [stIds_bulkUpdate]
  exact List.mem_map_of_mem (fun st => st.id) h

theorem mem_stKeys_createdRows {x : Nat × Nat × Option Nat} {sts : List SplitTest} {f e : Nat}
    {cc : CountMap} {pv : Int} {now : Nat} {items : CountMap}
    (h : x ∈ (createdRows sts f e cc pv now items).map stKey) :
    ∃ k, k ∈ alKeys items ∧ x = (f, e, k) ∧ findRow sts f e k = none := by
  obtain ⟨n, hn, rfl⟩ := List.mem_map.1 h
  obtain ⟨k, v, hkv, hnone, rfl⟩ := mem_createdRows hn
  exact ⟨k, List.mem_map_of_mem (fun p => p.1) hkv, (stKey_newSplitTest f e k _ _ _ _).symm ▸ rfl,
    hnone⟩

theorem nodup_stKeys_createdRows (sts : List SplitTest) (f e : Nat) (cc : CountMap) (pv : Int)
    (now : Nat) (items : CountMap) (hkeys : (alKeys items).Nodup) :
    ((createdRows sts f e cc pv now items).map stKey).Nodup := by
  induction items with
  | nil => simp [createdRows]
  | cons kv rest ih =>
    obtain ⟨k₁, v₁⟩ := kv
    rw [alKeys_cons, List.nodup_cons] at hkeys
    simp only [createdRows, List.filterMap_cons]
    cases hf : findRow sts f e k₁ with
    | some r =>
      simp only [hf]
      exact ih hkeys.2
    | none =>
      simp only [hf, List.map_cons, List.nodup_cons]
      refine ⟨fun hmem => ?_, ih hkeys.2⟩
      obtain ⟨k, hkmem, hkeq, _⟩ := mem_stKeys_createdRows hmem
      rw [stKey_newSplitTest] at hkeq
      simp only [Prod.mk.injEq] at hkeq
      exact hkeys.1 (hkeq.2.2 ▸ hkmem)

theorem uniqueRowKeys_applySave (sts : List SplitTest) (f e : Nat) (ec cc : CountMap)
    (pv : Int) (now : Nat) (hids : UniqueIds sts) (hrk : UniqueRowKeys sts)
    (hkeys : (alKeys ec).Nodup) : UniqueRowKeys (applySave sts f e ec cc pv now) := by
  unfold applySave bulkCreate UniqueRowKeys
  rw [List.map_append, List.nodup_append]
  refine ⟨?_, ?_, ?_⟩
  · rw [stKeys_bulkUpdate sts _ hids (fun u hu => updatedRows_meta hu)]
    exact hrk
  · rw [stKeys_withFreshIds]
    exact nodup_stKeys_createdRows sts f e cc pv now ec hkeys
  · intro x hx hy
    rw [stKeys_bulkUpdate sts _ hids (fun u hu => updatedRows_meta hu)] at hx
    rw [stKeys_withFreshIds] at hy
    obtain ⟨k, _, rfl, hnone⟩ := mem_stKeys_createdRows hy
    obtain ⟨st, hst, hkey⟩ := List.mem_map.1 hx
    exact (List.find?_eq_none.1 hnone) st hst ((rowMatches_iff f e k st).2 hkey)

theorem applySave_filter_env (sts : List SplitTest) (f e : Nat) (ec cc : CountMap) (pv : Int)
    (now : Nat) (hids : UniqueIds sts) {e₀ : Nat} (hne : e₀ ≠ e) :
    (applySave sts f e ec cc pv now).filter (fun st => st.environment_id == e₀) =
      sts.filter (fun st => st.environment_id == e₀) := by
  unfold applySave bulkCreate
  rw [List.filter_append]
  have hwf : (withFreshIds (maxId (bulkUpdate sts (updatedRows sts f e cc pv now ec)) + 1)
      (createdRows sts f e cc pv now ec)).filter (fun st => st.environment_id == e₀) = [] := by
    rw [List.filter_eq_nil_iff]
    intro st hst
    obtain ⟨n, hn, j, rfl⟩ := mem_withFreshIds hst
    obtain ⟨k, v, _, _, rfl⟩ := mem_createdRows hn
    simp [newSplitTest, Ne.symm hne]
  rw [hwf, List.append_nil]
  unfold bulkUpdate
  rw [List.filter_map]
  have hcong : ∀ st ∈ sts,
      ((fun st => st.environment_id == e₀) ∘
        (fun st => ((updatedRows sts f e cc pv now ec).find? (fun u => u.id == st.id)).getD st)) st
      = (fun st => st.environment_id == e₀) st := by
    intro st hst
    simp only [Function.comp_apply]
    have hmeta := (buFun_eq sts (updatedRows sts f e cc pv now ec) hids
      (fun u hu => updatedRows_meta hu) hst).1
    rw [env_eq_of_stKey hmeta]
  rw [List.filter_congr hcong]
  refine (List.map_congr_left (fun st hst => ?_)).trans (List.map_id _)
  obtain ⟨hmem, hp⟩ := List.mem_filter.1 hst
  cases hf : (updatedRows sts f e cc pv now ec).find? (fun u => u.id == st.id) with
  | none => rfl
  | some u =>
    exfalso
    obtain ⟨k, v, r, _, hfr, rfl⟩ := mem_updatedRows (List.mem_of_find?_eq_some hf)
    have hid : r.id = st.id := by simpa [id_setValues] using List.find?_some hf
    have hrst : r = st := eq_of_mem_uniqueIds hids (List.mem_of_find?_eq_some hfr) hmem hid
    have henv : r.environment_id = e := by
      have hsk := (rowMatches_iff f e k r).1 (List.find?_some hfr)
      unfold stKey at hsk
      simp only [Prod.mk.injEq] at hsk
      exact hsk.2.1
    rw [hrst] at henv
    have hp' : st.environment_id = e₀ := by simpa using hp
    exact hne (hp'.symm.trans henv)

theorem setValues_self (st : SplitTest) {ev cv : Nat} {pv : Int} (now : Nat)
    (h1 : st.evaluation_count = ev) (h2 : st.conversion_count = cv) (h3 : st.pvalue = pv) :
    setValues st ev cv pv now = { st with updated_at := now } := by
  cases st
  simp_all [setValues]

theorem applySave_idem (sts : List SplitTest) (f e : Nat) (ec cc : CountMap) (pv : Int)
    (now₁ now₂ : Nat) (hids : UniqueIds sts) (hkeys : (alKeys ec).Nodup) :
    (applySave (applySave sts f e ec cc pv now₁) f e ec cc pv now₂).map stripTimestamp =
      (applySave sts f e ec cc pv now₁).map stripTimestamp := by
  have hids₁ : UniqueIds (applySave sts f e ec cc pv now₁) :=
    uniqueIds_applySave sts f e ec cc pv now₁ hids
  have hfound : ∀ kv ∈ ec, ∃ st,
      findRow (applySave sts f e ec cc pv now₁) f e kv.1 = some st ∧
      st.evaluation_count = (alGet? ec kv.1).getD 0 ∧
      st.conversion_count = (alGet? cc kv.1).getD 0 ∧
      st.pvalue = pv ∧ st.updated_at = now₁ ∧ stKey st = (f, e, kv.1) :=
    fun kv hkv =>
      applySave_find sts f e ec cc pv now₁ hids hkeys (List.mem_map_of_mem (fun p => p.1) hkv)
  have hcreated : createdRows (applySave sts f e ec cc pv now₁) f e cc pv now₂ ec = [] := by
    rw [createdRows, List.filterMap_eq_nil_iff]
    intro kv hkv
    obtain ⟨st, hst, -⟩ := hfound kv hkv
    rw [hst]
  conv_lhs => rw [applySave, bulkCreate, hcreated]
  rw [show withFreshIds (maxId (bulkUpdate (applySave sts f e ec cc pv now₁)
      (updatedRows (applySave sts f e ec cc pv now₁) f e cc pv now₂ ec)) + 1) [] = [] from rfl,
    List.append_nil, bulkUpdate, List.map_map]
  refine List.map_congr_left (fun st hst => ?_)
  simp only [Function.comp_apply]
  cases hf : (updatedRows (applySave sts f e ec cc pv now₁) f e cc pv now₂ ec).find?
      (fun u => u.id == st.id) with
  | none => rfl
  | some u =>
    rw [Option.getD_some]
    obtain ⟨k, v, r, hkv, hfr, rfl⟩ := mem_updatedRows (List.mem_of_find?_eq_some hf)
    obtain ⟨st', hst', he1, he2, he3, _, _⟩ := hfound (k, v) hkv
    have hre : st' = r := Option.some.inj (hst'.symm.trans hfr)
    rw [hre] at he1 he2 he3
    have hval : alGet? ec k = some v := get_eq_of_mem_nodup ec hkeys hkv
    have hru : setValues r v ((alGet? cc k).getD 0) pv now₂ = { r with updated_at := now₂ } := by
      refine setValues_self r now₂ ?_ he2 he3
      rw [he1, hval]
      rfl
    have hid : r.id = st.id := by simpa [id_setValues] using List.find?_some hf
    have heq : r = st :=
      eq_of_mem_uniqueIds hids₁ (List.mem_of_find?_eq_some hfr) hst hid
    rw [hru, heq]
    rfl

theorem reconcileLoop_error (qs : List SplitTest) (cc : CountMap) (pv : Int)
    (f e now : Nat) (items : CountMap) {err : Err}
    (h : reconcileLoop qs cc pv f e now items = .error err) : err = .keyError := by
  induction items with
  | nil => cases h
  | cons kv rest ih =>
    obtain ⟨k, ev⟩ := kv
    unfold reconcileLoop at h
    cases hg : alGet? cc k with
    | none => rw [hg] at h; cases h; rfl
    | some cv =>
      rw [hg] at h
      cases hr : reconcileLoop qs cc pv f e now rest with
      | error e0 =>
        rw [hr] at h
        cases h
        exact ih hr
      | ok pr =>
        rw [hr] at h
        obtain ⟨upd, news⟩ := pr
        cases hf : qs.find? (keyMatches k) with
        | some st => rw [hf] at h; cases h
        | none => rw [hf] at h; cases h

/-! ### Dissection of `_save_environment_split_test` -/

theorem save_eq (ghk : Identity → Bool → String) (gmv : FeatureState → String → Option Nat)
    (gpv : CountMap → CountMap → Int) (feature : Feature) (e : Nat) (idents : List String)
    (now : Nat) (db : DB) {environment : Environment} {feature_state : FeatureState}
    {ec cc : CountMap}
    (henv : db.environments.find? (fun en => en.id == e) = some environment)
    (hfs : (db.feature_states.filter (fun fs => fs.feature_id == feature.id)).find?
      (fun fs => fs.environment_id == e) = some feature_state)
    (hcounts : countsLoop (resolveArm ghk gmv feature_state environment)
      (conversionIdentityIds db e (evaluatedIdentities db e idents))
      (evaluatedIdentities db e idents) (initCounts feature) (initCounts feature)
      = .ok (ec, cc))
    (hsome : ∀ kv ∈ ec, (alGet? cc kv.1).isSome) :
    save_environment_split_test ghk gmv gpv feature e idents now db =
      .ok { db with
        split_tests := applySave db.split_tests feature.id e ec cc (gpv ec cc) now } := by
  simp only [save_environment_split_test, henv, hfs, hcounts,
    reconcileLoop_ok (db.split_tests.filter (envFeatureMatches feature.id e)) db.split_tests cc
      (gpv ec cc) feature.id e now ec rfl hsome]
  rfl

theorem save_ok_elim (ghk : Identity → Bool → String) (gmv : FeatureState → String → Option Nat)
    (gpv : CountMap → CountMap → Int) (feature : Feature) (e : Nat) (idents : List String)
    (now : Nat) (db : DB) {db' : DB}
    (h : save_environment_split_test ghk gmv gpv feature e idents now db = .ok db') :
    ∃ environment feature_state ec cc,
      db.environments.find? (fun en => en.id == e) = some environment ∧
      (db.feature_states.filter (fun fs => fs.feature_id == feature.id)).find?
        (fun fs => fs.environment_id == e) = some feature_state ∧
      countsLoop (resolveArm ghk gmv feature_state environment)
        (conversionIdentityIds db e (evaluatedIdentities db e idents))
        (evaluatedIdentities db e idents) (initCounts feature) (initCounts feature)
        = .ok (ec, cc) ∧
      alKeys ec = alKeys (initCounts feature) ∧
      alKeys cc = alKeys (initCounts feature) ∧
      alSum ec = (evaluatedIdentities db e idents).length ∧
      (∀ k, (alGet? cc k).getD 0 ≤ (alGet? ec k).getD 0) ∧
      db' = { db with
        split_tests := applySave db.split_tests feature.id e ec cc (gpv ec cc) now } := by
  unfold save_environment_split_test at h
  split at h
  · cases h
  · next environment henv =>
    simp only [] at h
    split at h
    · cases h
    · next feature_state hfs =>
      split at h
      · cases h
      · next ec cc hcnt =>
        split at h
        · cases h
        · next upd news hrec =>
          obtain ⟨hek, hck, hsum⟩ := countsLoop_ok_spec _ _ _ _ _ hcnt
          have hle := countsLoop_ok_le _ _ _ _ _ hcnt (fun k => le_refl _)
          have hsome : ∀ kv ∈ ec, (alGet? cc kv.1).isSome := by
            intro kv hkv
            have hmem : kv.1 ∈ alKeys cc := by
              rw [hck, ← hek]
              exact List.mem_map_of_mem (fun p => p.1) hkv
            obtain ⟨v, hv, _⟩ := get_of_mem_alKeys cc hmem
            rw [hv]
            rfl
          have hcl := reconcileLoop_ok (db.split_tests.filter (envFeatureMatches feature.id e))
            db.split_tests cc (gpv ec cc) feature.id e now ec rfl hsome
          have hpair := Except.ok.inj (hcl.symm.trans hrec)
          have hupd : upd = updatedRows db.split_tests feature.id e cc (gpv ec cc) now ec :=
            (congrArg Prod.fst hpair).symm
          have hnews : news = createdRows db.split_tests feature.id e cc (gpv ec cc) now ec :=
            (congrArg Prod.snd hpair).symm
          refine ⟨environment, feature_state, ec, cc, henv, hfs, hcnt, hek, hck, ?_, hle, ?_⟩
          · rw [hsum, alSum_initCounts]
            exact Nat.zero_add _
          · rw [← Except.ok.inj h, hupd, hnews]
            rfl

theorem save_error_classified (ghk : Identity → Bool → String)
    (gmv : FeatureState → String → Option Nat) (gpv : CountMap → CountMap → Int)
    (feature : Feature) (e : Nat) (idents : List String) (now : Nat) (db : DB) {err : Err}
    (h : save_environment_split_test ghk gmv gpv feature e idents now db = .error err) :
    err = .environmentNotFound ∨ err = .featureStateNotFound ∨ err = .keyError := by
  unfold save_environment_split_test at h
  split at h
  · exact Or.inl (Except.error.inj h).symm
  · next environment henv =>
    simp only [] at h
    split at h
    · exact Or.inr (Or.inl (Except.error.inj h).symm)
    · next feature_state hfs =>
      split at h
      · next err0 hcnt =>
        have h0 := countsLoop_error _ _ _ _ _ hcnt
        exact Or.inr (Or.inr ((Except.error.inj h).symm.trans h0))
      · next ec cc hcnt =>
        split at h
        · next err0 hrec =>
          have h0 := reconcileLoop_error _ _ _ _ _ _ _ hrec
          exact Or.inr (Or.inr ((Except.error.inj h).symm.trans h0))
        · next upd news hrec =>
          cases h

theorem save_congr (ghk : Identity → Bool → String) (gmv : FeatureState → String → Option Nat)
    (gpv : CountMap → CountMap → Int) (feature : Feature) (e : Nat)
    (idents₁ idents₂ : List String) (now : Nat) (db₁ db₂ : DB)
    (hEnv : db₂.environments = db₁.environments)
    (hFS : db₂.feature_states = db₁.feature_states)
    (hST : db₂.split_tests = db₁.split_tests)
    (hEval : evaluatedIdentities db₂ e idents₂ = evaluatedIdentities db₁ e idents₁)
    (hConv : ∀ x, (conversionIdentityIds db₂ e (evaluatedIdentities db₂ e idents₂)).contains x
      = (conversionIdentityIds db₁ e (evaluatedIdentities db₁ e idents₁)).contains x) :
    Except.map DB.split_tests (save_environment_split_test ghk gmv gpv feature e idents₂ now db₂)
      = Except.map DB.split_tests
          (save_environment_split_test ghk gmv gpv feature e idents₁ now db₁) := by
  rw [hEval] at hConv
  cases henv : db₁.environments.find? (fun en => en.id == e) with
  | none =>
    simp only [save_environment_split_test, hEnv, hEval, hFS, hST, henv, Except.map]
  | some environment =>
    cases hfs : (db₁.feature_states.filter (fun fs => fs.feature_id == feature.id)).find?
        (fun fs => fs.environment_id == e) with
    | none =>
      simp only [save_environment_split_test, hEnv, hEval, hFS, hST, henv, hfs, Except.map]
    | some feature_state =>
      have hcl := countsLoop_congr (resolveArm ghk gmv feature_state environment) hConv
        (evaluatedIdentities db₁ e idents₁) (initCounts feature) (initCounts feature)
      cases hcnt : countsLoop (resolveArm ghk gmv feature_state environment)
          (conversionIdentityIds db₁ e (evaluatedIdentities db₁ e idents₁))
          (evaluatedIdentities db₁ e idents₁) (initCounts feature) (initCounts feature) with
      | error err =>
        simp only [save_environment_split_test, hEnv, hEval, hFS, hST, henv, hfs, hcl, hcnt,
          Except.map]
      | ok pr =>
        obtain ⟨ec, cc⟩ := pr
        cases hrec : reconcileLoop (db₁.split_tests.filter (envFeatureMatches feature.id e)) cc
            (gpv ec cc) feature.id e now ec with
        | error err =>
          simp only [save_environment_split_test, hEnv, hEval, hFS, hST, henv, hfs, hcl, hcnt,
            hrec, Except.map]
        | ok pr2 =>
          obtain ⟨upd, news⟩ := pr2
          simp only [save_environment_split_test, hEnv, hEval, hFS, hST, henv, hfs, hcl, hcnt,
            hrec, Except.map]

/-! ### Support lemmas for the claim theorems -/

theorem contains_iff_mem {α : Type} [BEq α] [LawfulBEq α] (l : List α) (a : α) :
    l.contains a = true ↔ a ∈ l := List.elem_iff

theorem contains_cons_of_mem {α : Type} [BEq α] [LawfulBEq α] {a : α} {l : List α}
    (h : a ∈ l) (x : α) : (a :: l).contains x = l.contains x := by
  cases hc : l.contains x with
  | true =>
    rw [List.contains_cons, hc, Bool.or_true]
  | false =>
    rw [List.contains_cons, hc, Bool.or_false]
    cases hxa : x == a with
    | false => rfl
    | true =>
      exfalso
      have hxe : x = a := by simpa using hxa
      have hxl : x ∈ l := by rw [hxe]; exact h
      rw [← contains_iff_mem l x, hc] at hxl
      cases hxl

theorem sum_keys_getD (l : CountMap) (hn : (alKeys l).Nodup) :
    ((alKeys l).map (fun k => (alGet? l k).getD 0)).sum = alSum l := by
  induction l with
  | nil => rfl
  | cons p rest ih =>
    obtain ⟨k₀, v₀⟩ := p
    rw [alKeys_cons, List.nodup_cons] at hn
    rw [alKeys_cons, List.map_cons, List.sum_cons, alSum_cons]
    rw [alGet?_cons_self v₀ rest k₀ rfl, Option.getD_some]
    have hcong : ∀ k ∈ alKeys rest,
        (alGet? ((k₀, v₀) :: rest) k).getD 0 = (alGet? rest k).getD 0 := by
      intro k hk
      have hne : ¬k₀ = k := fun hcon => hn.1 (hcon ▸ hk)
      rw [alGet?_cons_ne v₀ rest k hne]
    rw [List.map_congr_left hcong, ih hn.2]

theorem mem_ids_of_mem_convIds {db : DB} {e : Nat} {evs : List Identity} {x : Nat}
    (h : x ∈ conversionIdentityIds db e evs) : x ∈ evs.map (fun i => i.id) := by
  unfold conversionIdentityIds at h
  obtain ⟨ce, hce, rfl⟩ := List.mem_map.1 h
  obtain ⟨_, hpred⟩ := List.mem_filter.1 hce
  rw [Bool.and_eq_true] at hpred
  exact (contains_iff_mem _ _).1 hpred.2

theorem mem_dedupF {α : Type} [BEq α] {l : List α} {x : α} (h : x ∈ dedupF l) : x ∈ l := by
  unfold dedupF at h
  suffices haux : ∀ (l : List α) (acc : List α),
      x ∈ l.foldl (fun acc a => if acc.contains a then acc else acc ++ [a]) acc →
      x ∈ acc ∨ x ∈ l by
    rcases haux l [] h with h' | h'
    · cases h'
    · exact h'
  intro l
  induction l with
  | nil => exact fun acc h => Or.inl h
  | cons a rest ih =>
    intro acc h
    rw [List.foldl_cons] at h
    by_cases hc : acc.contains a = true
    · rw [if_pos hc] at h
      rcases ih acc h with h' | h'
      · exact Or.inl h'
      · exact Or.inr (by simp [h'])
    · rw [if_neg hc] at h
      rcases ih (acc ++ [a]) h with h' | h'
      · rcases List.mem_append.1 h' with h'' | h''
        · exact Or.inl h''
        · exact Or.inr (by simp [List.mem_singleton.1 h''])
      · exact Or.inr (by simp [h'])

theorem mem_qualifyingPairs {db : DB} {feature : Feature} {environment_ids : List Nat}
    {p : Nat × String} (h : p ∈ qualifyingPairs db feature environment_ids) :
    ∃ r ∈ db.raw_evaluations, r.identity_identifier = some p.2 ∧
      r.feature_name = feature.name ∧ r.environment_id = p.1 := by
  unfold qualifyingPairs at h
  rw [List.mem_filterMap] at h
  obtain ⟨r, hr, heq⟩ := h
  split at heq
  · cases heq
  · next ident hii =>
    split at heq
    · next hc =>
      have hp := Option.some.inj heq
      rw [Bool.and_eq_true] at hc
      have hname : r.feature_name = feature.name := by simpa using hc.1
      exact ⟨r, hr, by rw [hii, ← hp], hname, by rw [← hp]⟩
    · cases heq

theorem saveEnvLoop_error_classified (ghk : Identity → Bool → String)
    (gmv : FeatureState → String → Option Nat) (gpv : CountMap → CountMap → Int)
    (feature : Feature) (now : Nat) (env_keys : List Nat) (pairs : List (Nat × String))
    (db : DB) {err : Err}
    (h : saveEnvLoop ghk gmv gpv feature now env_keys pairs db = .error err) :
    err ≠ .featureNotFound := by
  induction env_keys generalizing db with
  | nil => cases h
  | cons e rest ih =>
    unfold saveEnvLoop at h
    split at h
    · next err0 hsv =>
      intro hcon
      have h1 : err0 = err := Except.error.inj h
      rcases save_error_classified _ _ _ _ _ _ _ _ hsv with h2 | h2 | h2 <;>
        · rw [hcon] at h1
          rw [h1] at h2
          cases h2
    · next db1 hsv =>
      exact ih db1 h

theorem saveEnvLoop_preserves (ghk : Identity → Bool → String)
    (gmv : FeatureState → String → Option Nat) (gpv : CountMap → CountMap → Int)
    (feature : Feature) (now : Nat) (env_keys : List Nat) (pairs : List (Nat × String))
    (db : DB) {db' : DB} {e₀ : Nat} (hids : UniqueIds db.split_tests)
    (hkeys : ∀ e ∈ env_keys, e ≠ e₀)
    (h : saveEnvLoop ghk gmv gpv feature now env_keys pairs db = .ok db') :
    db'.split_tests.filter (fun st => st.environment_id == e₀)
      = db.split_tests.filter (fun st => st.environment_id == e₀) := by
  induction env_keys generalizing db with
  | nil =>
    obtain rfl : db = db' := Except.ok.inj h
    rfl
  | cons e rest ih =>
    unfold saveEnvLoop at h
    split at h
    · cases h
    · next db₁ hsv =>
      obtain ⟨env, fs, ec, cc, henv, hfs, hcnt, hek, hck, hsum, hle, hdb⟩ :=
        save_ok_elim _ _ _ _ _ _ _ _ hsv
      have hsts : db₁.split_tests
          = applySave db.split_tests feature.id e ec cc (gpv ec cc) now := by rw [hdb]
      have hids₁ : UniqueIds db₁.split_tests := by
        rw [hsts]
        exact uniqueIds_applySave _ _ _ _ _ _ _ hids
      have hfr : db₁.split_tests.filter (fun st => st.environment_id == e₀)
          = db.split_tests.filter (fun st => st.environment_id == e₀) := by
        rw [hsts]
        exact applySave_filter_env _ _ _ _ _ _ _ hids (Ne.symm (hkeys e (by simp)))
      have := ih db₁ hids₁ (fun e' he' => hkeys e' (by simp [he'])) h
      exact this.trans hfr

/-- One per-environment run (successful or not) preserves primary-key
uniqueness and row-key uniqueness, and keeps every pre-existing primary key. -/
theorem applyRun_preserves (ghk : Identity → Bool → String)
    (gmv : FeatureState → String → Option Nat) (gpv : CountMap → CountMap → Int)
    (rs : Feature × Nat × List String × Nat) (db : DB)
    (hids : UniqueIds db.split_tests) (hkeys : UniqueRowKeys db.split_tests) :
    UniqueRowKeys (applyRun ghk gmv gpv rs db).split_tests ∧
    UniqueIds (applyRun ghk gmv gpv rs db).split_tests ∧
    ∀ st ∈ db.split_tests, st.id ∈ stIds (applyRun ghk gmv gpv rs db).split_tests := by
  unfold applyRun
  cases hsv : save_environment_split_test ghk gmv gpv rs.1 rs.2.1 rs.2.2.1 rs.2.2.2 db with
  | error err => exact ⟨hkeys, hids, fun st h => List.mem_map_of_mem (fun st => st.id) h⟩
  | ok d =>
    obtain ⟨env, fs, ec, cc, _, _, _, hek, hck, _, _, hdb⟩ := save_ok_elim _ _ _ _ _ _ _ _ hsv
    have hsts : d.split_tests
        = applySave db.split_tests rs.1.id rs.2.1 ec cc (gpv ec cc) rs.2.2.2 := by rw [hdb]
    have hkeysE : (alKeys ec).Nodup := by rw [hek]; exact nodup_alKeys_initCounts rs.1
    refine ⟨?_, ?_, ?_⟩
    · rw [hsts]
      exact uniqueRowKeys_applySave _ _ _ _ _ _ _ hids hkeys hkeysE
    · rw [hsts]
      exact uniqueIds_applySave _ _ _ _ _ _ _ hids
    · intro st h
      rw [hsts]
      exact mem_stIds_applySave h _ _ _ _ _ _

/-! ### The claims -/

/-- C1: running the per-environment pipeline (`_save_environment_split_test`)
twice in succession with identical underlying data — the second run starts
from the first run's output database, whose raw evaluations, identities,
conversion events and variant configuration are unchanged — succeeds and
leaves every persisted `SplitTest` row with identical `evaluation_count`,
`conversion_count` and `pvalue` values after the second run as after the
first; only timestamps may differ.  Primary-key uniqueness of the stored
rows is assumed, as the database enforces it. -/
theorem C1_reconciler_idempotent (get_hash_key : Identity → Bool → String)
    (get_multivariate_feature_state_value : FeatureState → String → Option Nat)
    (gather_split_test_metrics : CountMap → CountMap → Int)
    (feature : Feature) (e : Nat) (idents : List String) (now₁ now₂ : Nat) (db : DB)
    {db₁ : DB} (hids : UniqueIds db.split_tests)
    (h1 : save_environment_split_test get_hash_key get_multivariate_feature_state_value
      gather_split_test_metrics feature e idents now₁ db = .ok db₁) :
    ∃ db₂, save_environment_split_test get_hash_key get_multivariate_feature_state_value
        gather_split_test_metrics feature e idents now₂ db₁ = .ok db₂ ∧
      db₂.split_tests.map stripTimestamp = db₁.split_tests.map stripTimestamp := by
  obtain ⟨env, fs, ec, cc, henv, hfs, hcnt, hek, hck, hsum, hle, hdb⟩ :=
    save_ok_elim _ _ _ _ _ _ _ _ h1
  have hkeysE : (alKeys ec).Nodup := by rw [hek]; exact nodup_alKeys_initCounts feature
  have hsome : ∀ kv ∈ ec, (alGet? cc kv.1).isSome := by
    intro kv hkv
    have hmem : kv.1 ∈ alKeys cc := by
      rw [hck, ← hek]
      exact List.mem_map_of_mem (fun p => p.1) hkv
    obtain ⟨v, hv, _⟩ := get_of_mem_alKeys cc hmem
    rw [hv]
    rfl
  subst hdb
  refine ⟨_, save_eq _ _ _ feature e idents now₂ _ henv hfs hcnt hsome, ?_⟩
  exact applySave_idem db.split_tests feature.id e ec cc
    (gather_split_test_metrics ec cc) now₁ now₂ hids hkeysE

/-- C2 (amended): for a processed feature and environment, the sum of the
stored `evaluation_count` over all configured arms equals the number of
`Identity` records of that environment whose identifier occurs in the
deduplicated evaluation list — i.e. the distinct exposed users *that resolve
to stored identities*, not all distinct identifiers in the raw log. -/
theorem C2_amended_evaluation_count_conservation (get_hash_key : Identity → Bool → String)
    (get_multivariate_feature_state_value : FeatureState → String → Option Nat)
    (gather_split_test_metrics : CountMap → CountMap → Int)
    (feature : Feature) (e : Nat) (idents : List String) (now : Nat) (db : DB) {db' : DB}
    (hids : UniqueIds db.split_tests)
    (h : save_environment_split_test get_hash_key get_multivariate_feature_state_value
      gather_split_test_metrics feature e idents now db = .ok db') :
    ((alKeys (initCounts feature)).map
        (fun k => rowEvalCount db'.split_tests feature.id e k)).sum
      = (evaluatedIdentities db e idents).length := by
  obtain ⟨env, fs, ec, cc, henv, hfs, hcnt, hek, hck, hsum, hle, hdb⟩ :=
    save_ok_elim _ _ _ _ _ _ _ _ h
  have hsts : db'.split_tests = applySave db.split_tests feature.id e ec cc
      (gather_split_test_metrics ec cc) now := by rw [hdb]
  have hkeysE : (alKeys ec).Nodup := by rw [hek]; exact nodup_alKeys_initCounts feature
  rw [hsts, ← hek]
  have hmap : ∀ k ∈ alKeys ec,
      rowEvalCount (applySave db.split_tests feature.id e ec cc
        (gather_split_test_metrics ec cc) now) feature.id e k = (alGet? ec k).getD 0 := by
    intro k hk
    obtain ⟨st, hst, he1, _, _, _, _⟩ := applySave_find db.split_tests feature.id e ec cc
      (gather_split_test_metrics ec cc) now hids hkeysE hk
    unfold rowEvalCount
    rw [hst, Option.map_some', Option.getD_some, he1]
  rw [List.map_congr_left hmap, sum_keys_getD ec hkeysE, hsum]

/-- C2 (counterexample): in `dbC2` the raw log for feature "f" and
environment 5 holds exactly one distinct non-null identifier ("u1"), the
full run succeeds, and yet the stored `evaluation_count` summed over all
arms is 0, not 1 — the code counts only identifiers that resolve to stored
`Identity` records, and "u1" resolves to none. -/
theorem C2_counterexample :
    update_features_split_tests cHK cMV cPV 1 0 dbC2 = Except.ok dbC2out ∧
    (dedupF (qualifyingPairs dbC2 wF
      ((dbC2.feature_states.filter (fun fs => fs.feature_id == wF.id)).map
        (fun fs => fs.environment_id)))).length = 1 ∧
    ((alKeys (initCounts wF)).map
      (fun k => rowEvalCount dbC2out.split_tests wF.id 5 k)).sum = 0 := by
  refine ⟨by rfl, by decide, by decide⟩

/-- C3: after the aggregation of one run, for every configured arm (Control
and each variant) the persisted row has `conversion_count` less than or
equal to `evaluation_count`. -/
theorem C3_conversion_le_evaluation (get_hash_key : Identity → Bool → String)
    (get_multivariate_feature_state_value : FeatureState → String → Option Nat)
    (gather_split_test_metrics : CountMap → CountMap → Int)
    (feature : Feature) (e : Nat) (idents : List String) (now : Nat) (db : DB) {db' : DB}
    (hids : UniqueIds db.split_tests)
    (h : save_environment_split_test get_hash_key get_multivariate_feature_state_value
      gather_split_test_metrics feature e idents now db = .ok db') :
    ∀ k ∈ alKeys (initCounts feature), ∃ st,
      findRow db'.split_tests feature.id e k = some st ∧
      st.conversion_count ≤ st.evaluation_count := by
  obtain ⟨env, fs, ec, cc, henv, hfs, hcnt, hek, hck, hsum, hle, hdb⟩ :=
    save_ok_elim _ _ _ _ _ _ _ _ h
  have hsts : db'.split_tests = applySave db.split_tests feature.id e ec cc
      (gather_split_test_metrics ec cc) now := by rw [hdb]
  have hkeysE : (alKeys ec).Nodup := by rw [hek]; exact nodup_alKeys_initCounts feature
  intro k hk
  rw [← hek] at hk
  obtain ⟨st, hst, he1, he2, _, _, _⟩ := applySave_find db.split_tests feature.id e ec cc
    (gather_split_test_metrics ec cc) now hids hkeysE hk
  refine ⟨st, by rw [hsts]; exact hst, ?_⟩
  rw [he1, he2]
  exact hle k

/-- C4: the aggregation initializes a zero entry for Control and every
configured variant before processing any user, so after a successful run a
persisted row exists for every configured arm of the feature and
environment, including arms with zero observed users. -/
theorem C4_row_for_every_configured_arm (get_hash_key : Identity → Bool → String)
    (get_multivariate_feature_state_value : FeatureState → String → Option Nat)
    (gather_split_test_metrics : CountMap → CountMap → Int)
    (feature : Feature) (e : Nat) (idents : List String) (now : Nat) (db : DB) {db' : DB}
    (hids : UniqueIds db.split_tests)
    (h : save_environment_split_test get_hash_key get_multivariate_feature_state_value
      gather_split_test_metrics feature e idents now db = .ok db') :
    (∃ st, findRow db'.split_tests feature.id e none = some st) ∧
    ∀ oid ∈ feature.multivariate_option_ids,
      ∃ st, findRow db'.split_tests feature.id e (some oid) = some st := by
  obtain ⟨env, fs, ec, cc, henv, hfs, hcnt, hek, hck, hsum, hle, hdb⟩ :=
    save_ok_elim _ _ _ _ _ _ _ _ h
  have hsts : db'.split_tests = applySave db.split_tests feature.id e ec cc
      (gather_split_test_metrics ec cc) now := by rw [hdb]
  have hkeysE : (alKeys ec).Nodup := by rw [hek]; exact nodup_alKeys_initCounts feature
  constructor
  · have hk : (none : Option Nat) ∈ alKeys ec := by
      rw [hek]
      exact (mem_alKeys_initCounts feature none).2 (Or.inl rfl)
    obtain ⟨st, hst, _, _, _, _, _⟩ := applySave_find db.split_tests feature.id e ec cc
      (gather_split_test_metrics ec cc) now hids hkeysE hk
    exact ⟨st, by rw [hsts]; exact hst⟩
  · intro oid hoid
    have hk : (some oid) ∈ alKeys ec := by
      rw [hek]
      exact (mem_alKeys_initCounts feature (some oid)).2 (Or.inr ⟨oid, hoid, rfl⟩)
    obtain ⟨st, hst, _, _, _, _, _⟩ := applySave_find db.split_tests feature.id e ec cc
      (gather_split_test_metrics ec cc) now hids hkeysE hk
    exact ⟨st, by rw [hsts]; exact hst⟩

/-- C5: a conversion event recorded for a user who is not in the exposed set
(no evaluated identity of that environment has their identity key) does not
change the computed split-test rows at all — in particular it increments no
arm's `conversion_count`. -/
theorem C5_unexposed_conversion_ignored (get_hash_key : Identity → Bool → String)
    (get_multivariate_feature_state_value : FeatureState → String → Option Nat)
    (gather_split_test_metrics : CountMap → CountMap → Int)
    (feature : Feature) (e : Nat) (idents : List String) (now : Nat) (db : DB)
    (ce : ConversionEvent)
    (hno : ce.identity_id ∉ (evaluatedIdentities db e idents).map (fun i => i.id)) :
    Except.map DB.split_tests (save_environment_split_test get_hash_key
      get_multivariate_feature_state_value gather_split_test_metrics feature e idents now
      { db with conversion_events := ce :: db.conversion_events })
      = Except.map DB.split_tests (save_environment_split_test get_hash_key
          get_multivariate_feature_state_value gather_split_test_metrics feature e idents now
          db) := by
  have hcf : conversionIdentityIds { db with conversion_events := ce :: db.conversion_events }
      e (evaluatedIdentities { db with conversion_events := ce :: db.conversion_events }
        e idents)
      = conversionIdentityIds db e (evaluatedIdentities db e idents) := by
    show ((ce :: db.conversion_events).filter
        (fun ce' => ce'.environment_id == e
          && ((evaluatedIdentities db e idents).map (fun i => i.id)).contains
            ce'.identity_id)).map (fun ce' => ce'.identity_id)
      = conversionIdentityIds db e (evaluatedIdentities db e idents)
    have hpred : ¬((fun ce' : ConversionEvent => ce'.environment_id == e
        && ((evaluatedIdentities db e idents).map (fun i => i.id)).contains ce'.identity_id)
          ce = true) := by
      intro hcon
      rw [Bool.and_eq_true] at hcon
      exact hno ((contains_iff_mem _ _).1 hcon.2)
    rw [List.filter_cons, if_neg hpred]
    rfl
  exact save_congr get_hash_key get_multivariate_feature_state_value
    gather_split_test_metrics feature e idents idents now db
    { db with conversion_events := ce :: db.conversion_events }
    rfl rfl rfl rfl (fun x => by rw [hcf])

/-- C6: for an exposed user, an additional conversion event on top of an
existing one in the same environment leaves the computed split-test rows
unchanged: per user only the presence of a conversion is counted, not the
number of conversion events. -/
theorem C6_duplicate_conversion_counted_once (get_hash_key : Identity → Bool → String)
    (get_multivariate_feature_state_value : FeatureState → String → Option Nat)
    (gather_split_test_metrics : CountMap → CountMap → Int)
    (feature : Feature) (e : Nat) (idents : List String) (now : Nat) (db : DB)
    (ce : ConversionEvent) (he : ce.environment_id = e)
    (hmem : ce.identity_id ∈ conversionIdentityIds db e (evaluatedIdentities db e idents)) :
    Except.map DB.split_tests (save_environment_split_test get_hash_key
      get_multivariate_feature_state_value gather_split_test_metrics feature e idents now
      { db with conversion_events := ce :: db.conversion_events })
      = Except.map DB.split_tests (save_environment_split_test get_hash_key
          get_multivariate_feature_state_value gather_split_test_metrics feature e idents now
          db) := by
  have hini : ce.identity_id ∈ (evaluatedIdentities db e idents).map (fun i => i.id) :=
    mem_ids_of_mem_convIds hmem
  have hpred : ((fun ce' : ConversionEvent => ce'.environment_id == e
      && ((evaluatedIdentities db e idents).map (fun i => i.id)).contains ce'.identity_id)
        ce = true) := by
    rw [Bool.and_eq_true]
    exact ⟨by simp [he], (contains_iff_mem _ _).2 hini⟩
  have hcf : conversionIdentityIds { db with conversion_events := ce :: db.conversion_events }
      e (evaluatedIdentities { db with conversion_events := ce :: db.conversion_events }
        e idents)
      = ce.identity_id :: conversionIdentityIds db e (evaluatedIdentities db e idents) := by
    show ((ce :: db.conversion_events).filter
        (fun ce' => ce'.environment_id == e
          && ((evaluatedIdentities db e idents).map (fun i => i.id)).contains
            ce'.identity_id)).map (fun ce' => ce'.identity_id)
      = ce.identity_id :: conversionIdentityIds db e (evaluatedIdentities db e idents)
    rw [List.filter_cons, if_pos hpred]
    rfl
  refine save_congr get_hash_key get_multivariate_feature_state_value
    gather_split_test_metrics feature e idents idents now db
    { db with conversion_events := ce :: db.conversion_events }
    rfl rfl rfl rfl (fun x => ?_)
  rw [hcf]
  exact contains_cons_of_mem hmem x

/-- C7: the reconciler's upsert preserves uniqueness of persisted rows:
starting from a state with at most one `SplitTest` row per (feature,
environment, arm) and unique primary keys, after any number of
per-environment runs there is still at most one persisted row per (feature,
environment, arm); an existing matching row is updated in place and no row
is ever deleted (every pre-existing primary key is still present). -/
theorem C7_upsert_preserves_uniqueness (get_hash_key : Identity → Bool → String)
    (get_multivariate_feature_state_value : FeatureState → String → Option Nat)
    (gather_split_test_metrics : CountMap → CountMap → Int)
    (runs : List (Feature × Nat × List String × Nat)) (db : DB)
    (hids : UniqueIds db.split_tests) (hkeys : UniqueRowKeys db.split_tests) :
    UniqueRowKeys (applyRuns get_hash_key get_multivariate_feature_state_value
      gather_split_test_metrics runs db).split_tests ∧
    UniqueIds (applyRuns get_hash_key get_multivariate_feature_state_value
      gather_split_test_metrics runs db).split_tests ∧
    ∀ st ∈ db.split_tests, st.id ∈ stIds (applyRuns get_hash_key
      get_multivariate_feature_state_value gather_split_test_metrics runs db).split_tests := by
  induction runs generalizing db with
  | nil => exact ⟨hkeys, hids, fun st h => List.mem_map_of_mem (fun st => st.id) h⟩
  | cons rs rest ih =>
    obtain ⟨h1, h2, h3⟩ := applyRun_preserves get_hash_key
      get_multivariate_feature_state_value gather_split_test_metrics rs db hids hkeys
    obtain ⟨g1, g2, g3⟩ := ih (applyRun get_hash_key get_multivariate_feature_state_value
      gather_split_test_metrics rs db) h2 h1
    refine ⟨g1, g2, fun st h => ?_⟩
    obtain ⟨st', hst', hid⟩ := List.mem_map.1 (h3 st h)
    rw [← hid]
    exact g3 st' hst'

/-- C8 (amended): `update_features_split_tests(feature_id)` propagates the
feature-lookup error exactly when `feature_id` does not resolve to an
existing feature; for any existing feature — in particular a valid
multivariate one — the lookup does not raise.  The code never checks the
feature's type. -/
theorem C8_amended_feature_lookup_error_iff (get_hash_key : Identity → Bool → String)
    (get_multivariate_feature_state_value : FeatureState → String → Option Nat)
    (gather_split_test_metrics : CountMap → CountMap → Int)
    (fid now : Nat) (db : DB) :
    update_features_split_tests get_hash_key get_multivariate_feature_state_value
        gather_split_test_metrics fid now db = .error .featureNotFound ↔
      db.features.find? (fun f => f.id == fid) = none := by
  constructor
  · intro h
    unfold update_features_split_tests at h
    split at h
    · next hf => exact hf
    · next feature hf =>
      simp only [] at h
      exact absurd rfl (saveEnvLoop_error_classified _ _ _ _ _ _ _ _ h)
  · intro h
    unfold update_features_split_tests
    rw [h]

/-- C8 (counterexample): feature id 1 exists in `dbC8` but its type is
"STANDARD", not multivariate, and `update_features_split_tests` succeeds
without raising, contradicting the claim that every id not resolving to an
existing *multivariate* feature propagates an error. -/
theorem C8_counterexample :
    update_features_split_tests cHK cMV cPV 1 0 dbC8 = Except.ok dbC8 ∧
    (∃ f ∈ dbC8.features, f.id = 1 ∧ f.type ≠ MULTIVARIATE) := by
  refine ⟨by rfl, by decide⟩

/-- C9: an identifier appearing in the deduplicated evaluation list that
matches no `Identity` record of the environment is silently dropped: the run
is literally identical to the run without that identifier, so it contributes
to no arm's `evaluation_count` or `conversion_count` and the persisted
totals reflect only identifiers that resolve to stored identities. -/
theorem C9_unmatched_identifier_dropped (get_hash_key : Identity → Bool → String)
    (get_multivariate_feature_state_value : FeatureState → String → Option Nat)
    (gather_split_test_metrics : CountMap → CountMap → Int)
    (feature : Feature) (e : Nat) (idents : List String) (now : Nat) (db : DB) (bad : String)
    (hno : ∀ i ∈ db.identities, i.environment_id = e → i.identifier ≠ bad) :
    save_environment_split_test get_hash_key get_multivariate_feature_state_value
        gather_split_test_metrics feature e (idents ++ [bad]) now db
      = save_environment_split_test get_hash_key get_multivariate_feature_state_value
          gather_split_test_metrics feature e idents now db := by
  have hEval : evaluatedIdentities db e (idents ++ [bad]) = evaluatedIdentities db e idents := by
    unfold evaluatedIdentities
    refine List.filter_congr (fun i hi => ?_)
    by_cases hie : i.environment_id = e
    · have hneq : i.identifier ≠ bad := hno i hi hie
      have hca : (idents ++ [bad]).contains i.identifier = idents.contains i.identifier := by
        cases hc : idents.contains i.identifier with
        | true =>
          exact (contains_iff_mem _ _).2
            (List.mem_append_left _ ((contains_iff_mem _ _).1 hc))
        | false =>
          cases hc2 : (idents ++ [bad]).contains i.identifier with
          | false => rfl
          | true =>
            exfalso
            rcases List.mem_append.1 ((contains_iff_mem _ _).1 hc2) with h' | h'
            · rw [← contains_iff_mem idents i.identifier, hc] at h'
              cases h'
            · exact hneq (List.mem_singleton.1 h')
      rw [hca]
    · have hb : (i.environment_id == e) = false := by simpa using hie
      rw [hb, Bool.false_and, Bool.false_and]
  unfold save_environment_split_test
  rw [hEval]

/-- C10: an environment of the feature with no raw evaluation record carrying
a non-null user identifier is skipped entirely by
`update_features_split_tests`: a successful run leaves that environment's
persisted `SplitTest` rows exactly unchanged. -/
theorem C10_environment_without_evaluations_skipped (get_hash_key : Identity → Bool → String)
    (get_multivariate_feature_state_value : FeatureState → String → Option Nat)
    (gather_split_test_metrics : CountMap → CountMap → Int)
    (fid now : Nat) (db : DB) {feature : Feature} {db' : DB} (e₀ : Nat)
    (hids : UniqueIds db.split_tests)
    (hf : db.features.find? (fun f => f.id == fid) = some feature)
    (hno : ∀ r ∈ db.raw_evaluations, r.feature_name = feature.name →
      r.environment_id = e₀ → r.identity_identifier = none)
    (h : update_features_split_tests get_hash_key get_multivariate_feature_state_value
      gather_split_test_metrics fid now db = .ok db') :
    db'.split_tests.filter (fun st => st.environment_id == e₀)
      = db.split_tests.filter (fun st => st.environment_id == e₀) := by
  unfold update_features_split_tests at h
  split at h
  · cases h
  · next feature' hf' =>
    have hfe : feature' = feature := Option.some.inj (hf'.symm.trans hf)
    simp only [] at h
    refine saveEnvLoop_preserves get_hash_key get_multivariate_feature_state_value
      gather_split_test_metrics feature' now _ _ db hids (fun e he => ?_) h
    intro hcon
    subst hcon
    have h1 := mem_dedupF he
    obtain ⟨p, hp, hpe⟩ := List.mem_map.1 h1
    have h2 := mem_dedupF hp
    obtain ⟨r, hr, hident, hname, henv⟩ := mem_qualifyingPairs h2
    have hn := hno r hr (hfe ▸ hname) (by rw [henv, hpe])
    rw [hn] at hident
    cases hident

/-! ### Witnesses: the claim theorems applied at concrete inputs -/

theorem C1_witness :
    ∃ db₂, save_environment_split_test cHK cMV cPV wF 5 ["u1", "u2"] 8 wOut = .ok db₂ ∧
      db₂.split_tests.map stripTimestamp = wOut.split_tests.map stripTimestamp :=
  C1_reconciler_idempotent cHK cMV cPV wF 5 ["u1", "u2"] 7 8 wDB (by decide) (by rfl)

theorem C2_witness :
    ((alKeys (initCounts wF)).map (fun k => rowEvalCount wOut.split_tests wF.id 5 k)).sum
      = (evaluatedIdentities wDB 5 ["u1", "u2"]).length :=
  C2_amended_evaluation_count_conservation cHK cMV cPV wF 5 ["u1", "u2"] 7 wDB
    (by decide) (by rfl)

theorem C3_witness :
    ∃ st, findRow wOut.split_tests wF.id 5 none = some st ∧
      st.conversion_count ≤ st.evaluation_count :=
  C3_conversion_le_evaluation cHK cMV cPV wF 5 ["u1", "u2"] 7 wDB (by decide) (by rfl)
    none (by decide)

theorem C4_witness :
    (∃ st, findRow wOut.split_tests wF.id 5 none = some st) ∧
    (∃ st, findRow wOut.split_tests wF.id 5 (some 10) = some st) :=
  ⟨(C4_row_for_every_configured_arm cHK cMV cPV wF 5 ["u1", "u2"] 7 wDB
      (by decide) (by rfl)).1,
   (C4_row_for_every_configured_arm cHK cMV cPV wF 5 ["u1", "u2"] 7 wDB
      (by decide) (by rfl)).2 10 (by decide)⟩

theorem C5_witness :
    Except.map DB.split_tests (save_environment_split_test cHK cMV cPV wF 5 ["u1", "u2"] 7
      { wDB with conversion_events :=
          { environment_id := 5, identity_id := 999 } :: wDB.conversion_events })
      = Except.map DB.split_tests
          (save_environment_split_test cHK cMV cPV wF 5 ["u1", "u2"] 7 wDB) :=
  C5_unexposed_conversion_ignored cHK cMV cPV wF 5 ["u1", "u2"] 7 wDB
    { environment_id := 5, identity_id := 999 } (by decide)

theorem C6_witness :
    Except.map DB.split_tests (save_environment_split_test cHK cMV cPV wF 5 ["u1", "u2"] 7
      { wDB with conversion_events :=
          { environment_id := 5, identity_id := 100 } :: wDB.conversion_events })
      = Except.map DB.split_tests
          (save_environment_split_test cHK cMV cPV wF 5 ["u1", "u2"] 7 wDB) :=
  C6_duplicate_conversion_counted_once cHK cMV cPV wF 5 ["u1", "u2"] 7 wDB
    { environment_id := 5, identity_id := 100 } (by decide) (by decide)

theorem C7_witness :
    UniqueRowKeys (applyRuns cHK cMV cPV [(wF, 5, ["u1", "u2"], 7)] wDB).split_tests ∧
    UniqueIds (applyRuns cHK cMV cPV [(wF, 5, ["u1", "u2"], 7)] wDB).split_tests :=
  ⟨(C7_upsert_preserves_uniqueness cHK cMV cPV [(wF, 5, ["u1", "u2"], 7)] wDB
      (by decide) (by decide)).1,
   (C7_upsert_preserves_uniqueness cHK cMV cPV [(wF, 5, ["u1", "u2"], 7)] wDB
      (by decide) (by decide)).2.1⟩

theorem C9_witness :
    save_environment_split_test cHK cMV cPV wF 5 (["u1", "u2"] ++ ["zz"]) 7 wDB
      = save_environment_split_test cHK cMV cPV wF 5 ["u1", "u2"] 7 wDB :=
  C9_unmatched_identifier_dropped cHK cMV cPV wF 5 ["u1", "u2"] 7 wDB "zz" (by decide)

theorem C10_witness :
    wUpdOut.split_tests.filter (fun st => st.environment_id == 6)
      = wDB.split_tests.filter (fun st => st.environment_id == 6) :=
  @C10_environment_without_evaluations_skipped cHK cMV cPV 1 0 wDB wF wUpdOut 6
    (by decide) (by decide) (by decide) (by rfl)

end SplitTesting
